import Mathlib

/-!
Verification of the crawl-and-index question-answering pipeline.

Strings of the source program are modelled as `List Char` (`Str`), so that
Python's slicing, splitting and concatenation become plain list operations.
Python `str` is Unicode; the model is faithful for all inputs that actually
occur in the claims and counterexamples (ASCII), and each simplification of a
standard-library routine is recorded in the doc comment of the corresponding
definition.  External services (HTTP transport, HTML parsing, the LLM
structured-completion endpoints) are modelled as oracle parameters, exactly at
the boundary where the source calls them.
-/

/-- Program strings: Python `str` as a list of characters. -/
abbrev Str := List Char

/-- Shorthand to turn a Lean string literal into a program string. -/
def S (s : String) : Str := s.toList

/-- Python slice-index normalisation for a sequence of length `n`:
negative indices count from the end and indices are clamped into `[0, n]`. -/
def pyIdx (n : Nat) (i : Int) : Nat :=
  if i < 0 then ((n : Int) + i).toNat else min i.toNat n

/-- Python slice `l[a:b]` (step 1). -/
def pySlice (l : Str) (a b : Int) : Str :=
  (l.drop (pyIdx l.length a)).take (pyIdx l.length b - pyIdx l.length a)

/-- Python `str.strip()` restricted to ASCII whitespace (the program only
strips cleaned HTML text, where only ASCII whitespace occurs). -/
def pyStrip (l : Str) : Str :=
  ((l.dropWhile Char.isWhitespace).reverse.dropWhile Char.isWhitespace).reverse

/-- The `"\n\n[...]\n\n"` separator of `TextCleaner.smart_truncate`. -/
def truncSep : Str := S ("\n\n[...]\n\n")

/-- `TextCleaner.smart_truncate` from `crawler.py`: identity below the budget,
otherwise 40/20/40 head-middle-tail selection joined by `truncSep`. -/
def smart_truncate (text : Str) (max_chars : Nat) : Str :=
  if text.length ≤ max_chars then text
  else
    let part_size := max_chars / 3
    let start := pySlice text 0 (part_size : Int)
    let middle_idx := text.length / 2
    let middle := pySlice text ((middle_idx : Int) - (part_size / 2 : Nat))
        ((middle_idx : Int) + (part_size / 2 : Nat))
    let endPart := pySlice text (-(part_size : Int)) (text.length : Int)
    start ++ truncSep ++ middle ++ truncSep ++ endPart

/-- The in-memory index content: `full_content` as an insertion-ordered
association list, mirroring a Python `dict[str, str]`. -/
abbrev ContentMap := List (Str × Str)

/-- Python `url in full_content` / `full_content[url]` on the model map. -/
def mapLookup (m : ContentMap) (k : Str) : Option Str :=
  match m with
  | [] => none
  | (k', v) :: rest => if k' = k then some v else mapLookup rest k

/-- One `"[Source: url]\ncontent\n"` block of `build_context`. -/
def sourceBlock (url content : Str) : Str :=
  S ("[Source: ") ++ url ++ S ("]\n") ++ content ++ S ("\n")

/-- One truncated `"[Source: url]\ntruncated...\n"` block of `build_context`. -/
def sourceBlockTrunc (url truncated : Str) : Str :=
  S ("[Source: ") ++ url ++ S ("]\n") ++ truncated ++ S ("...\n")

/-- The accumulation loop of `QueryProcessor.build_context` (`processor.py`
lines 147-170): walks the URL list keeping a running character count; a URL
missing from the map is skipped, an exhausted budget breaks, a fitting source
is appended whole, and a non-fitting source is hard-truncated to
`available_space - 100` characters (Python slice semantics) and ends the loop. -/
def build_context_parts (fc : ContentMap) (max_chars : Nat) :
    List Str → Nat → List Str
  | [], _ => []
  | url :: rest, char_count =>
    match mapLookup fc url with
    | none => build_context_parts fc max_chars rest char_count
    | some content =>
      let available_space := max_chars - char_count
      if available_space = 0 then []
      else if content.length ≤ available_space then
        sourceBlock url content ::
          build_context_parts fc max_chars rest (char_count + content.length)
      else
        [sourceBlockTrunc url (pySlice content 0 ((available_space : Int) - 100))]

/-- Python `"\n".join(parts)`. -/
def joinNl : List Str → Str
  | [] => []
  | [p] => p
  | p :: rest => p ++ (Char.ofNat 10) :: joinNl rest

/-- `QueryProcessor.build_context` from `processor.py`. -/
def build_context (fc : ContentMap) (urls : List Str) (max_chars : Nat) : Str :=
  joinNl (build_context_parts fc max_chars urls 0)

/-- `models.UsageInfo`. -/
structure UsageInfo where
  input_tokens : Nat
  output_tokens : Nat
deriving DecidableEq

/-- `models.AskResponse`. -/
structure AskResponse where
  user_question : Str
  answer : Str
  usage : UsageInfo
  sources : List Str
deriving DecidableEq

/-- `models.PageSelection` (structured output of the selection service). -/
structure PageSelection where
  relevant_urls : List Str
  reasoning : Str

/-- `models.AnswerGeneration` (structured output of the answer service).
`confidence` is a float in the source; it is carried opaquely as an integer
since no control flow ever reads it. -/
structure AnswerGeneration where
  answer : Str
  confidence : Int
  sources_used : List Str

/-- Outcome of one call to the selection service: either its parsed structured
output or the text of the raised exception. -/
abbrev SelOutcome := Except Str PageSelection

/-- Outcome of one call to the answer service: either its parsed structured
output together with the reported token usage, or the raised exception text. -/
abbrev AnsOutcome := Except Str (AnswerGeneration × UsageInfo)

/-- `QueryProcessor.find_relevant_pages` (`processor.py` lines 53-134), with
the LLM call modelled by its outcome `sel`: on success the returned URLs are
filtered to those present in `full_content`, an empty filtrate falls back to
all indexed URLs, and any exception also falls back to all indexed URLs. -/
def find_relevant_pages (fc : ContentMap) (sel : SelOutcome) : List Str :=
  match sel with
  | Except.error _ => fc.map (fun kv => kv.1)
  | Except.ok selection =>
    let valid_urls := selection.relevant_urls.filter
      (fun u => (mapLookup fc u).isSome)
    if valid_urls = [] then fc.map (fun kv => kv.1) else valid_urls

/-- `QueryProcessor.generate_answer` (`processor.py` lines 174-262) with the
LLM call modelled by its outcome: on success the response carries the model
answer and reported usage; on any exception it carries an error-describing
answer, zero usage, and the same `sources` argument. -/
def generate_answer (question _context : Str) (sources : List Str)
    (svc : AnsOutcome) : AskResponse :=
  match svc with
  | Except.ok (gen, usage) =>
    { user_question := question, answer := gen.answer
      usage := usage, sources := sources }
  | Except.error e =>
    { user_question := question
      answer := S ("Error generating answer: ") ++ e
      usage := { input_tokens := 0, output_tokens := 0 }
      sources := sources }

/-- `QueryProcessor.ask` (`processor.py` lines 28-51): select pages, build the
context with a 180000-character budget, generate the answer.  The answer
service is a function of the assembled context, as in the source. -/
def ask (fc : ContentMap) (question : Str) (sel : SelOutcome)
    (ansSvc : Str → AnsOutcome) : AskResponse :=
  let relevant_urls := find_relevant_pages fc sel
  let context := build_context fc relevant_urls 180000
  generate_answer question context relevant_urls (ansSvc context)

/-- Python `str.lower()` restricted to ASCII case mapping. -/
def lowerStr (s : Str) : Str := s.map Char.toLower

/-- `urllib.parse.scheme_chars`: ASCII letters, digits and `+ - .`. -/
def isSchemeChar (c : Char) : Bool :=
  c.isAlphanum || c = ('+') || c = ('-') || c = ('.')

/-- The netloc delimiters `/ ? #` of `urllib.parse._splitnetloc`. -/
def isNetDelim (c : Char) : Bool :=
  c = ('/') || c = ('?') || c = ('#')

/-- Longest prefix whose characters all fail `p` (chars before the first hit). -/
def takeUntilP (p : Char → Bool) : Str → Str
  | [] => []
  | a :: l => if p a then [] else a :: takeUntilP p l

/-- Suffix starting at the first character satisfying `p` (empty if none). -/
def dropUntilP (p : Char → Bool) : Str → Str
  | [] => []
  | a :: l => if p a then a :: l else dropUntilP p l

/-- Characters strictly after the last hit of `p` (all of `l` if no hit). -/
def afterLast (p : Char → Bool) (l : Str) : Str :=
  (takeUntilP p l.reverse).reverse

/-- Prefix of `l` up to and including the last hit of `p` (empty if no hit). -/
def beforeLastIncl (p : Char → Bool) (l : Str) : Str :=
  (dropUntilP p l.reverse).reverse

/-- Result record of `urllib.parse.urlsplit`. -/
structure SplitResult where
  scheme : Str
  netloc : Str
  path : Str
  query : Str
  fragment : Str
deriving DecidableEq

/-- Result record of `urllib.parse.urlparse`. -/
structure UrlParts where
  scheme : Str
  netloc : Str
  path : Str
  params : Str
  query : Str
  fragment : Str
deriving DecidableEq

/-- The scheme-extraction step of `urlsplit`: a scheme is taken when the first
`:` is preceded by a nonempty run of scheme characters starting with an ASCII
letter; the scheme is lowercased. -/
def extract_scheme (url : Str) : Str × Str :=
  if (':') ∈ url then
    let pre := takeUntilP (fun a => a = (':')) url
    if pre ≠ [] ∧ (pre.headD (' ')).isAlpha = true ∧ pre.all isSchemeChar = true then
      (lowerStr pre, (dropUntilP (fun a => a = (':')) url).tail)
    else ([], url)
  else ([], url)

/-- `urllib.parse._splitnetloc` applied when the remainder starts with `//`:
the netloc runs to the first of `/ ? #`. -/
def splitnetloc2 (url : Str) : Str × Str :=
  if url.take 2 = [('/'), ('/')] then
    (takeUntilP isNetDelim (url.drop 2), dropUntilP isNetDelim (url.drop 2))
  else ([], url)

/-- `urllib.parse.urlsplit` (CPython 3.11), modelled without the WHATWG
control-character stripping and without the `ValueError` paths for malformed
bracketed hosts (inputs of this program contain neither control characters
nor bracketed IPv6 hosts). -/
def urlsplit (url : Str) : SplitResult :=
  let sr := extract_scheme url
  let nr := splitnetloc2 sr.2
  let u3 := if (('#') ∈ nr.2) then takeUntilP (fun a => a = ('#')) nr.2 else nr.2
  let fragment := if (('#') ∈ nr.2) then (dropUntilP (fun a => a = ('#')) nr.2).tail else []
  let path := if (('?') ∈ u3) then takeUntilP (fun a => a = ('?')) u3 else u3
  let query := if (('?') ∈ u3) then (dropUntilP (fun a => a = ('?')) u3).tail else []
  ⟨sr.1, nr.1, path, query, fragment⟩

/-- `urllib.parse._splitparams` together with the `';' in url` guard of
`urlparse`: parameters are split at the first `;` of the last path segment. -/
def split_params (path : Str) : Str × Str :=
  if (';') ∈ path then
    if (('/') ∈ path) then
      let seg := afterLast (fun a => a = ('/')) path
      if (';') ∈ seg then
        (beforeLastIncl (fun a => a = ('/')) path ++ takeUntilP (fun a => a = (';')) seg,
         (dropUntilP (fun a => a = (';')) seg).tail)
      else (path, [])
    else (takeUntilP (fun a => a = (';')) path, (dropUntilP (fun a => a = (';')) path).tail)
  else (path, [])

/-- `urllib.parse.urlparse`. -/
def urlparse (url : Str) : UrlParts :=
  let s := urlsplit url
  let pr := split_params s.path
  ⟨s.scheme, s.netloc, pr.1, pr.2, s.query, s.fragment⟩

/-- Characters `quote_plus` leaves unescaped: ASCII alphanumerics and
`_ . - ~`.  Characters above U+00FF are modelled as safe (CPython escapes
their UTF-8 bytes instead; the program never quotes non-Latin strings). -/
def isSafeChar (c : Char) : Bool :=
  c.isAlphanum || c = ('_') || c = ('.') || c = ('-') || c = ('~') || decide (256 ≤ c.toNat)

/-- Uppercase hexadecimal digit for `n < 16`. -/
def hexDigitUpper (n : Nat) : Char :=
  if n < 10 then Char.ofNat (48 + n) else Char.ofNat (55 + n)

/-- `quote_plus` on one character: safe characters pass, space becomes `+`,
anything else becomes a `%XX` escape. -/
def quote_char (c : Char) : Str :=
  if isSafeChar c then [c]
  else if c = (' ') then [('+')]
  else [('%'), hexDigitUpper (c.toNat / 16), hexDigitUpper (c.toNat % 16)]

/-- `urllib.parse.quote_plus` with its default empty safe set. -/
def quote_plus (s : Str) : Str := (s.map quote_char).flatten

/-- Value of one hexadecimal digit, both cases accepted (as `int(_, 16)`). -/
def hexVal (c : Char) : Option Nat :=
  if c.isDigit then some (c.toNat - 48)
  else if (('a') ≤ c ∧ c ≤ ('f')) then some (c.toNat - 87)
  else if (('A') ≤ c ∧ c ≤ ('F')) then some (c.toNat - 55)
  else none

/-- The `%XX` decoding loop of `urllib.parse.unquote`: a percent followed by
two hex digits decodes to that code point, any malformed escape is kept
verbatim.  CPython decodes escape bytes through UTF-8; the model maps each
escape to its code point directly, which agrees on ASCII. -/
def unquote_core : Str → Str
  | [] => []
  | ('%') :: a :: b :: rest =>
    match hexVal a, hexVal b with
    | some x, some y => Char.ofNat (16 * x + y) :: unquote_core rest
    | _, _ => ('%') :: unquote_core (a :: b :: rest)
  | c :: rest => c :: unquote_core rest

/-- `unquote_plus` as used by `parse_qsl`: `+` becomes a space, then `%XX`
escapes are decoded. -/
def unquote_plus (s : Str) : Str :=
  unquote_core (s.map (fun c => if c = ('+') then (' ') else c))

/-- Python `str.split(sep)` for a one-character separator. -/
def splitSep (sep : Char) : Str → List Str
  | [] => [[]]
  | c :: rest =>
    match splitSep sep rest with
    | [] => [[c]]
    | h :: t => if c = sep then [] :: h :: t else (c :: h) :: t

/-- `urllib.parse.parse_qsl` with default arguments: split on `&`, drop empty
pieces, drop pieces without `=`, drop pairs with an empty value, and unquote
names and values. -/
def parse_qsl (qs : Str) : List (Str × Str) :=
  (splitSep ('&') qs).filterMap fun nv =>
    if nv = [] then none
    else if (('=') ∈ nv) then
      let value := (dropUntilP (fun a => a = ('=')) nv).tail
      if value ≠ [] then
        some (unquote_plus (takeUntilP (fun a => a = ('=')) nv), unquote_plus value)
      else none
    else none

/-- The dictionary-building loop of `parse_qs`: append to an existing key,
otherwise insert the key at the end (Python dict insertion order). -/
def addPair (acc : List (Str × List Str)) (kv : Str × Str) : List (Str × List Str) :=
  if acc.any (fun e => e.1 = kv.1) then
    acc.map (fun e => if e.1 = kv.1 then (e.1, e.2 ++ [kv.2]) else e)
  else acc ++ [(kv.1, [kv.2])]

/-- `urllib.parse.parse_qs`, as an insertion-ordered association list. -/
def parse_qs (qs : Str) : List (Str × List Str) :=
  (parse_qsl qs).foldl addPair []

/-- Python `sep.join(parts)` for a one-character separator. -/
def joinSep (sep : Char) : List Str → Str
  | [] => []
  | [p] => p
  | p :: rest => p ++ sep :: joinSep sep rest

/-- `urllib.parse.urlencode` with `doseq=True` over string-list values:
one `quote_plus(k)=quote_plus(v)` piece per value, joined by `&`. -/
def urlencode (d : List (Str × List Str)) : Str :=
  joinSep ('&')
    ((d.map (fun kv => kv.2.map (fun v => quote_plus kv.1 ++ ('=') :: quote_plus v))).flatten)

/-- `urllib.parse.uses_netloc` (CPython 3.11). -/
def uses_netloc : List Str :=
  ([r"", r"ftp", r"http", r"gopher", r"nntp", r"telnet", r"imap", r"wais",
    r"file", r"mms", r"https", r"shttp", r"snews", r"prospero", r"rtsp",
    r"rtsps", r"rtspu", r"rsync", r"svn", r"svn+ssh", r"sftp", r"nfs",
    r"git", r"git+ssh", r"ws", r"wss"]).map (fun s => s.toList)

/-- `urllib.parse.urlunsplit` (CPython 3.11): the `//` marker is emitted when
a netloc is present or when the scheme is known to use one and the path does
not already begin with `//`. -/
def urlunsplit (scheme netloc url query fragment : Str) : Str :=
  let url1 :=
    if netloc ≠ [] ∨ (scheme ≠ [] ∧ scheme ∈ uses_netloc ∧ url.take 2 ≠ [('/'), ('/')]) then
      let u := if url ≠ [] ∧ url.take 1 ≠ [('/')] then ('/') :: url else url
      ('/') :: ('/') :: (netloc ++ u)
    else url
  let url2 := if scheme ≠ [] then scheme ++ (':') :: url1 else url1
  let url3 := if query ≠ [] then url2 ++ ('?') :: query else url2
  if fragment ≠ [] then url3 ++ ('#') :: fragment else url3

/-- `urllib.parse.urlunparse`. -/
def urlunparse (p : UrlParts) : Str :=
  urlunsplit p.scheme p.netloc
    (if p.params ≠ [] then p.path ++ (';') :: p.params else p.path)
    p.query p.fragment

/-- The tracking-parameter denylist of `Crawler._normalize_url`. -/
def utm_params : List Str :=
  ([r"utm_source", r"utm_medium", r"utm_campaign", r"utm_content", r"utm_term"]).map
    (fun s => s.toList)

/-- `Crawler._normalize_url` (`crawler.py` lines 113-146): re-parse the URL,
drop tracking parameters from the parsed query, re-encode the remainder, and
reassemble without a fragment. -/
def normalize_url (url : Str) : Str :=
  let parsed := urlparse url
  let query_params := parse_qs parsed.query
  let filtered_params := query_params.filter (fun kv => decide (kv.1 ∉ utm_params))
  let new_query := if filtered_params ≠ [] then urlencode filtered_params else []
  urlunparse ⟨parsed.scheme, parsed.netloc, parsed.path, parsed.params, new_query, []⟩

/-- The skipped file extensions of `Crawler._should_skip_url`. -/
def skip_extensions : List Str :=
  ([r".pdf", r".jpg", r".jpeg", r".png", r".gif", r".zip", r".mp4"]).map
    (fun s => s.toList)

/-- `Crawler._should_skip_url` (`crawler.py` lines 148-159): the whole URL,
lowercased, is tested with `endswith` against each extension. -/
def should_skip_url (url : Str) : Bool :=
  skip_extensions.any (fun ext => decide (ext <:+ lowerStr url))

/-- Fetch-and-extract oracle for one crawl: for a URL, either `none` (network
error, non-2xx status, or non-HTML content type — the page contributes
nothing) or `some (html, links)` with the response body and the outbound
anchor targets already resolved to absolute URLs (`urljoin` applied), exactly
the values the loop body of `crawl_site` computes before normalisation. -/
abbrev SiteGraph := Str → Option (Str × List Str)

/-- The mutable loop state of `Crawler.crawl_site`, plus a `fetched` trace
recording each URL passed to `client.get` (one entry per actual fetch). -/
structure CrawlState where
  to_visit : List Str
  visited : List Str
  pages : List (Str × Str)
  fetched : List Str
deriving DecidableEq

/-- Python `set.add`: append only when absent. -/
def addToSet (s : List Str) (x : Str) : List Str :=
  if x ∈ s then s else s ++ [x]

/-- The link loop of `crawl_site` (`crawler.py` lines 72-96): each extracted
absolute link is normalised; it joins the frontier exactly when its netloc
equals the base domain, its extension is not skipped, and it is not yet
visited.  `visited` is fixed for the whole loop, as in the source. -/
def process_links (base_domain : Str) (visited : List Str) :
    List Str → List Str → List Str
  | to_visit, [] => to_visit
  | to_visit, link :: rest =>
    let normalized := normalize_url link
    if (urlparse normalized).netloc = base_domain ∧ should_skip_url normalized = false
        ∧ normalized ∉ visited then
      process_links base_domain visited (addToSet to_visit normalized) rest
    else
      process_links base_domain visited to_visit rest

/-- One iteration of the `while to_visit and len(pages) < max_pages` loop of
`crawl_site`.  `set.pop` returns an arbitrary element, so the popped URL is an
arbitrary member of the frontier; the three constructors are the three paths
through the loop body: already-visited pop, failed fetch, successful fetch. -/
inductive CrawlStep (g : SiteGraph) (base_domain : Str) (max_pages : Nat) :
    CrawlState → CrawlState → Prop where
  | skip_visited (s : CrawlState) (url : Str)
      (hmem : url ∈ s.to_visit) (hcap : s.pages.length < max_pages)
      (hvis : url ∈ s.visited) :
      CrawlStep g base_domain max_pages s { s with to_visit := s.to_visit.erase url }
  | fetch_fail (s : CrawlState) (url : Str)
      (hmem : url ∈ s.to_visit) (hcap : s.pages.length < max_pages)
      (hvis : url ∉ s.visited) (hg : g url = none) :
      CrawlStep g base_domain max_pages s
        { to_visit := s.to_visit.erase url
          visited := s.visited ++ [url]
          pages := s.pages
          fetched := s.fetched ++ [url] }
  | fetch_ok (s : CrawlState) (url html : Str) (links : List Str)
      (hmem : url ∈ s.to_visit) (hcap : s.pages.length < max_pages)
      (hvis : url ∉ s.visited) (hg : g url = some (html, links)) :
      CrawlStep g base_domain max_pages s
        { to_visit := process_links base_domain (s.visited ++ [url])
            (s.to_visit.erase url) links
          visited := s.visited ++ [url]
          pages := s.pages ++ [(url, html)]
          fetched := s.fetched ++ [url] }

/-- The loop state at entry of `crawl_site`: frontier `{base_url}` (the seed is
not normalised in the source), `pages = []`, and whatever `self.visited`
already holds on this `Crawler` instance. -/
def crawl_init (base_url : Str) (visited0 : List Str) : CrawlState :=
  { to_visit := [base_url], visited := visited0, pages := [], fetched := [] }

/-- States reachable by running `crawl_site(base_url)` on an instance whose
visited set currently is `visited0`; the base domain is computed from the seed
as in the source. -/
def CrawlReach (g : SiteGraph) (base_url : Str) (max_pages : Nat)
    (visited0 : List Str) (s : CrawlState) : Prop :=
  Relation.ReflTransGen (CrawlStep g (urlparse base_url).netloc max_pages)
    (crawl_init base_url visited0) s

/-- `Crawler.__init__` (`crawler.py` line 30): the visited set starts empty and
no method of the class ever clears it. -/
def crawler_initial_visited : List Str := []

/-- `models.PageSummary`. -/
structure PageSummary where
  topics : List Str
  key_points : List Str
  potential_questions : List Str
  summary : Str

/-- `models.Page` (the optional `text` field is never set by the crawler). -/
structure Page where
  url : Str
  html : Str

/-- Outcome of one summarisation call, as a function of the page URL, the
truncated content and the retry attempt: the parsed structured summary with
its reported token usage, or the text of the raised exception. -/
abbrev SummarySvc := Str → Str → Nat → Except Str (PageSummary × UsageInfo)

/-- The index state owned by `ContentIndexer` (`indexer.py` lines 27-36). -/
structure IndexState where
  summaries : List (Str × PageSummary)
  full_content : List (Str × Str)
  total_input_tokens : Nat
  total_output_tokens : Nat
  failed_summaries : List Str
  retry_successes : Nat

/-- The state right after `ContentIndexer.__init__`. -/
def emptyIndexState : IndexState := ⟨[], [], 0, 0, [], 0⟩

/-- Python `dict` assignment `m[k] = v`: overwrite in place or append. -/
def mapSet {α : Type} (m : List (Str × α)) (k : Str) (v : α) : List (Str × α) :=
  if m.any (fun kv => kv.1 = k) then
    m.map (fun kv => if kv.1 = k then (k, v) else kv)
  else m ++ [(k, v)]

/-- The retry trigger of `generate_summary`:
`"validation error" in str(e).lower()`. -/
def isValidationError (e : Str) : Bool :=
  decide (S ("validation error") <:+: lowerStr e)

/-- `ContentIndexer.generate_summary` (`indexer.py` lines 104-207): call the
service on `smart_truncate(content, 15000)`; on success accumulate the usage
counters; on a validation-style failure at attempt 0 recurse once (counting a
retry success whenever the recursive call returns, as the source does); on any
other failure record the URL as failed and fall back to the minimal summary
`(["Error processing page"], [], [], content[:500])`. -/
def generate_summary (svc : SummarySvc) (url content : Str) (retry : Nat)
    (st : IndexState) : PageSummary × IndexState :=
  let truncated := smart_truncate content 15000
  match svc url truncated retry with
  | Except.ok (s, usage) =>
    (s, { st with
          total_input_tokens := st.total_input_tokens + usage.input_tokens
          total_output_tokens := st.total_output_tokens + usage.output_tokens })
  | Except.error e =>
    if _h : retry = 0 ∧ isValidationError e = true then
      let r := generate_summary svc url content 1 st
      (r.1, { r.2 with retry_successes := r.2.retry_successes + 1 })
    else
      (⟨[S ("Error processing page")], [], [], pySlice content 0 500⟩,
       { st with failed_summaries := st.failed_summaries ++ [url] })
termination_by 1 - retry
decreasing_by omega

/-- The page loop of `ContentIndexer.index_site` (`indexer.py` lines 60-78):
clean the HTML (`extract_text` is the oracle `cleanF`; it is built on
BeautifulSoup and is outside the embedded core), skip pages whose stripped
text is shorter than 100 characters, otherwise store the text and its
generated summary. -/
def index_pages (cleanF : Str → Str) (svc : SummarySvc) :
    List Page → IndexState → IndexState
  | [], st => st
  | page :: rest, st =>
    let clean_text := cleanF page.html
    if (pyStrip clean_text).length < 100 then index_pages cleanF svc rest st
    else
      let st1 := { st with full_content := mapSet st.full_content page.url clean_text }
      let r := generate_summary svc page.url clean_text 0 st1
      let st3 := { r.2 with summaries := mapSet r.2.summaries page.url r.1 }
      index_pages cleanF svc rest st3

/-- `ContentIndexer.index_site` applied to the crawled pages. -/
def index_site (pages : List Page) (cleanF : Str → Str) (svc : SummarySvc) :
    IndexState :=
  index_pages cleanF svc pages emptyIndexState

/-- The forward invariant of one crawl run: no URL is fetched twice, fetched
URLs are recorded as visited, URLs already visited at entry are never fetched
(and stay visited), every returned page was fetched, and at most `max_pages`
pages are collected. -/
def CrawlInv (max_pages : Nat) (visited0 : List Str) (s : CrawlState) : Prop :=
  s.fetched.Nodup ∧
  (∀ u ∈ s.fetched, u ∈ s.visited) ∧
  (∀ u ∈ visited0, u ∈ s.visited ∧ u ∉ s.fetched) ∧
  (∀ u ∈ s.pages.map (fun p => p.1), u ∈ s.fetched) ∧
  s.pages.length ≤ max_pages

/-- Seed of the two-run persistence scenario. -/
def wBase : Str := S ("http://h/")

/-- One-page site for the two-run persistence scenario. -/
def wGraph : SiteGraph := fun u =>
  if u = S ("http://h/") then some (S (""), []) else none

/-- Final state of the first crawl run on `wGraph`. -/
def wS1 : CrawlState :=
  { to_visit := [], visited := [wBase], pages := [(wBase, S (""))], fetched := [wBase] }

/-- Final state of the second crawl run on `wGraph` (the seed, already in the
persisted visited set, is popped and discarded without a fetch). -/
def wS2 : CrawlState :=
  { to_visit := [], visited := [wBase], pages := [], fetched := [] }

/-- A seed URL carrying a fragment: the source never normalises the seed. -/
def cBase : Str := S ("http://h/page#f")

/-- The normal form of `cBase`. -/
def cNorm : Str := S ("http://h/page")

/-- Two-node site whose root page links to the normal form of the seed. -/
def cGraph : SiteGraph := fun u =>
  if u = S ("http://h/page#f") then some (S (""), [S ("http://h/page")])
  else if u = S ("http://h/page") then some (S (""), []) else none

/-- State after fetching the fragment-bearing seed of `cGraph`. -/
def cS1 : CrawlState :=
  { to_visit := [cNorm], visited := [cBase], pages := [(cBase, S (""))], fetched := [cBase] }

/-- State after additionally fetching the normalised duplicate of the seed. -/
def cS2 : CrawlState :=
  { to_visit := [], visited := [cBase, cNorm],
    pages := [(cBase, S ("")), (cNorm, S (""))], fetched := [cBase, cNorm] }


/-- The condition under which `urlsplit` recognises a scheme prefix: the
string has a `:` whose preceding run is a nonempty scheme-character string
starting with an ASCII letter. -/
def schemeyCond (l : Str) : Prop :=
  (':') ∈ l ∧ takeUntilP (fun a => a = (':')) l ≠ [] ∧
  ((takeUntilP (fun a => a = (':')) l).headD (' ')).isAlpha = true ∧
  (takeUntilP (fun a => a = (':')) l).all isSchemeChar = true

/-- The body built by `urlunsplit` before the scheme, query and fragment are
attached. -/
def urlbody (σ ν pp : Str) : Str :=
  if ν ≠ [] ∨ (σ ≠ [] ∧ σ ∈ uses_netloc ∧ pp.take 2 ≠ [('/'), ('/')]) then
    ('/') :: ('/') :: (ν ++ (if pp ≠ [] ∧ pp.take 1 ≠ [('/')] then ('/') :: pp else pp))
  else pp

/-- The invariant of one crawl run from a normalized seed: every frontier URL
is in normal form, fetched URLs are recorded as visited, no URL is fetched
twice, fetched URLs are in normal form, and at most `max_pages` pages are
collected. -/
def CrawlIdemInv (max_pages : Nat) (s : CrawlState) : Prop :=
  (∀ x ∈ s.to_visit, normalize_url x = x) ∧
  (∀ x ∈ s.fetched, x ∈ s.visited) ∧
  s.fetched.Nodup ∧
  (∀ x ∈ s.fetched, normalize_url x = x) ∧
  s.pages.length ≤ max_pages

set_option maxRecDepth 8000

theorem pyIdx_nonneg (n : Nat) (p : Nat) : pyIdx n (p : Int) = min p n := by
  rw [pyIdx, if_neg (by omega)]
  simp

theorem pySlice_pfx (l : Str) (p : Nat) (hp : p ≤ l.length) :
    pySlice l 0 (p : Int) = l.take p := by
  have h0 : pyIdx l.length ((0 : Nat) : Int) = 0 := by
    rw [pyIdx_nonneg]; omega
  have hp' : pyIdx l.length (p : Int) = p := by
    rw [pyIdx_nonneg]; omega
  rw [pySlice]
  norm_cast at h0 ⊢
  rw [h0, hp']
  simp

theorem pySlice_suffix (l : Str) (p : Nat) (hp : 1 ≤ p) (hpl : p ≤ l.length) :
    pySlice l (-(p : Int)) (l.length : Int) = l.drop (l.length - p) := by
  have h1 : pyIdx l.length (-(p : Int)) = l.length - p := by
    rw [pyIdx, if_pos (by omega)]
    omega
  have h2 : pyIdx l.length (l.length : Int) = l.length := by
    rw [pyIdx_nonneg]; omega
  rw [pySlice, h1, h2]
  exact List.take_of_length_le (by simp)

theorem head?_take (l : Str) (p : Nat) (hp : 1 ≤ p) :
    (l.take p).head? = l.head? := by
  cases l with
  | nil => simp
  | cons a t =>
    cases p with
    | zero => omega
    | succ n => simp [List.take]

theorem getLast?_drop (l : Str) (k : Nat) (hk : k < l.length) :
    (l.drop k).getLast? = l.getLast? := by
  rw [List.getLast?_eq_head?_reverse, List.getLast?_eq_head?_reverse,
    List.reverse_drop]
  exact head?_take l.reverse (l.length - k) (by omega)

theorem head?_append_left (l l' : Str) (h : l ≠ []) : (l ++ l').head? = l.head? := by
  cases l with
  | nil => simp at h
  | cons a t => simp

theorem getLast?_append_right (l l' : Str) (h : l' ≠ []) :
    (l ++ l').getLast? = l'.getLast? := by
  rw [List.getLast?_append, Option.or_of_isSome]
  simpa [List.getLast?_isSome] using h

/-- Claim C2: with the answer service failing with exception text `e`, `ask`
still returns a well-formed `AskResponse` whose answer states that answer
generation failed with the reason, whose token usage is zero, and whose
sources are exactly the Stage-A candidate list `find_relevant_pages fc sel`
(not the model's self-reported subset).  `ask` is a total function of the two
service outcomes, so no failure path escapes it. -/
theorem ask_answer_failure_shape (fc : ContentMap) (q : Str) (sel : SelOutcome)
    (e : Str) :
    ask fc q sel (fun _ => Except.error e) =
      { user_question := q
      , answer := S ("Error generating answer: ") ++ e
      , usage := { input_tokens := 0, output_tokens := 0 }
      , sources := find_relevant_pages fc sel } := rfl

/-- Claim C8: `find_relevant_pages` returns every indexed URL whenever the
selection service raises, or returns only URLs that are absent from
`full_content` (so that filtering leaves nothing). -/
theorem find_relevant_pages_fallback (fc : ContentMap) (sel : SelOutcome)
    (h : (∃ e, sel = Except.error e) ∨
      ∃ s, sel = Except.ok s ∧
        s.relevant_urls.filter (fun u => (mapLookup fc u).isSome) = []) :
    find_relevant_pages fc sel = fc.map (fun kv => kv.1) := by
  rcases h with ⟨e, rfl⟩ | ⟨s, rfl, hf⟩
  · rfl
  · simp [find_relevant_pages, hf]

/-- Witness for C8 at a one-page index and a failing selection call. -/
theorem find_relevant_pages_fallback_witness :
    find_relevant_pages [(S ("a"), S ("c"))] (Except.error (S ("boom")))
      = ([(S ("a"), S ("c"))]).map (fun kv => kv.1) :=
  find_relevant_pages_fallback _ _ (Or.inl ⟨_, rfl⟩)

/-- Claim C3, counterexample: for a 100-character text and budget 2 the
truncated output has 118 characters, exceeding the budget by far more than
the fixed separator overhead (two 9-character separators): with
`part_size = 2 // 3 = 0`, the Python tail slice `text[-0:]` is the whole
text, so the output embeds the entire input. -/
theorem smart_truncate_small_budget_counterexample :
    2 < (List.replicate 100 ('a')).length ∧
    (smart_truncate (List.replicate 100 ('a')) 2).length = 118 ∧
    ¬ ((smart_truncate (List.replicate 100 ('a')) 2).length ≤ 2 + 2 * truncSep.length) := by
  refine ⟨by decide, by decide, by decide⟩

/-- Claim C3, amended: for every budget of at least 3 characters,
`smart_truncate` is the identity when the text fits and otherwise keeps the
first and last characters of the input, contains the literal `[...]` marker,
and exceeds the budget by at most the two separators. -/
theorem smart_truncate_spec (text : Str) (max_chars : Nat) (h3 : 3 ≤ max_chars) :
    (text.length ≤ max_chars → smart_truncate text max_chars = text) ∧
    (max_chars < text.length →
      (smart_truncate text max_chars).head? = text.head? ∧
      (smart_truncate text max_chars).getLast? = text.getLast? ∧
      S ("[...]") <:+: smart_truncate text max_chars ∧
      (smart_truncate text max_chars).length ≤ max_chars + 2 * truncSep.length) := by
  refine ⟨fun h => by rw [smart_truncate, if_pos h], fun h => ?_⟩
  have hne : ¬ text.length ≤ max_chars := by omega
  have hp1 : 1 ≤ max_chars / 3 := by omega
  have hpn : max_chars / 3 ≤ text.length := by
    have := Nat.div_le_self max_chars 3; omega
  have htxt : text ≠ [] := by
    cases text with
    | nil => simp at h
    | cons a t => simp
  have hout : smart_truncate text max_chars =
      pySlice text 0 ((max_chars / 3 : Nat) : Int) ++ truncSep ++
      pySlice text ((( text.length / 2 : Nat) : Int) - ((max_chars / 3 / 2 : Nat) : Int))
        ((( text.length / 2 : Nat) : Int) + ((max_chars / 3 / 2 : Nat) : Int)) ++ truncSep ++
      pySlice text (-((max_chars / 3 : Nat) : Int)) ((text.length : Nat) : Int) := by
    rw [smart_truncate, if_neg hne]
  rw [pySlice_pfx _ _ hpn, pySlice_suffix _ _ hp1 hpn] at hout
  have hq2 : max_chars / 3 / 2 ≤ text.length / 2 :=
    Nat.div_le_div_right hpn
  have hMa : pyIdx text.length ((( text.length / 2 : Nat) : Int) - ((max_chars / 3 / 2 : Nat) : Int))
      = text.length / 2 - max_chars / 3 / 2 := by
    rw [pyIdx, if_neg (by omega)]
    have h2 : text.length / 2 ≤ text.length := Nat.div_le_self _ _
    omega
  have hMb : pyIdx text.length ((( text.length / 2 : Nat) : Int) + ((max_chars / 3 / 2 : Nat) : Int))
      ≤ text.length / 2 + max_chars / 3 / 2 := by
    rw [pyIdx, if_neg (by omega)]
    omega
  have hMlen : (pySlice text ((( text.length / 2 : Nat) : Int) - ((max_chars / 3 / 2 : Nat) : Int))
      ((( text.length / 2 : Nat) : Int) + ((max_chars / 3 / 2 : Nat) : Int))).length
      ≤ max_chars / 3 := by
    rw [pySlice, hMa]
    have := List.length_take (pyIdx text.length ((( text.length / 2 : Nat) : Int) + ((max_chars / 3 / 2 : Nat) : Int)) - (text.length / 2 - max_chars / 3 / 2))
      (text.drop (text.length / 2 - max_chars / 3 / 2))
    have h4 : max_chars / 3 / 2 + max_chars / 3 / 2 ≤ max_chars / 3 := by omega
    omega
  have hTake : text.take (max_chars / 3) ≠ [] := by
    have : (text.take (max_chars / 3)).length = max_chars / 3 := by
      rw [List.length_take]; omega
    intro hc
    rw [hc] at this
    simp at this
    omega
  have hDropLen : (text.drop (text.length - max_chars / 3)).length = max_chars / 3 := by
    rw [List.length_drop]; omega
  have hDrop : text.drop (text.length - max_chars / 3) ≠ [] := by
    intro hc; rw [hc] at hDropLen; simp at hDropLen; omega
  refine ⟨?_, ?_, ?_, ?_⟩
  · rw [hout]
    rw [List.append_assoc, List.append_assoc, List.append_assoc,
      head?_append_left _ _ hTake]
    exact head?_take _ _ hp1
  · rw [hout]
    rw [getLast?_append_right _ _ hDrop]
    exact getLast?_drop _ _ (by omega)
  · have h1 : S ("[...]") <:+: truncSep := by decide
    have h2 : truncSep <:+: smart_truncate text max_chars := by
      refine ⟨text.take (max_chars / 3), ?_⟩
      refine ⟨pySlice text ((( text.length / 2 : Nat) : Int) - ((max_chars / 3 / 2 : Nat) : Int))
        ((( text.length / 2 : Nat) : Int) + ((max_chars / 3 / 2 : Nat) : Int)) ++ truncSep ++
        text.drop (text.length - max_chars / 3), ?_⟩
      rw [hout]
      simp [List.append_assoc]
    exact h1.trans h2
  · rw [hout]
    simp only [List.length_append]
    have hl1 : (text.take (max_chars / 3)).length = max_chars / 3 := by
      rw [List.length_take]; omega
    have hl3 : max_chars / 3 * 3 ≤ max_chars := Nat.div_mul_le_self _ _
    have hsep : truncSep.length = 9 := by decide
    omega

/-- Witness for the amended C3 at a 10-character text and budget 4. -/
theorem smart_truncate_spec_witness :
    ((List.replicate 10 ('a')).length ≤ 4 →
      smart_truncate (List.replicate 10 ('a')) 4 = List.replicate 10 ('a')) ∧
    (4 < (List.replicate 10 ('a')).length →
      (smart_truncate (List.replicate 10 ('a')) 4).head? = (List.replicate 10 ('a')).head? ∧
      (smart_truncate (List.replicate 10 ('a')) 4).getLast? = (List.replicate 10 ('a')).getLast? ∧
      S ("[...]") <:+: smart_truncate (List.replicate 10 ('a')) 4 ∧
      (smart_truncate (List.replicate 10 ('a')) 4).length ≤ 4 + 2 * truncSep.length) :=
  smart_truncate_spec (List.replicate 10 ('a')) 4 (by decide)

/-- Claim C1 (code bug in `build_context`): with budget 30 and a single
150-character source, `available_space - 100` is `-70`, and the Python slice
`content[:-70]` keeps the first 80 characters instead of truncating, so the
output has 96 characters — far beyond the budget plus the per-source
formatting overhead (`"[Source: "`, the URL, `"]\n"`, `"...\n"`). -/
theorem build_context_negative_slice_overflow :
    (build_context [(S ("u"), List.replicate 150 ('a'))] [S ("u")] 30).length = 96 ∧
    ¬ ((build_context [(S ("u"), List.replicate 150 ('a'))] [S ("u")] 30).length
        ≤ 30 + ((S ("[Source: ")).length + (S ("]\n")).length
          + (S ("...\n")).length + (S ("u")).length)) :=
  ⟨by decide, by decide⟩

theorem generate_summary_maps (svc : SummarySvc) (url content : Str) (retry : Nat)
    (st : IndexState) :
    (generate_summary svc url content retry st).2.summaries = st.summaries ∧
    (generate_summary svc url content retry st).2.full_content = st.full_content := by
  induction retry, st using generate_summary.induct svc url content with
  | case1 retry st tr s usage heq =>
    rw [generate_summary, heq]
    exact ⟨rfl, rfl⟩
  | case2 retry st tr e heq h ih =>
    rw [generate_summary, heq]
    simp only [dif_pos h]
    exact ih
  | case3 retry st tr e heq h =>
    rw [generate_summary, heq]
    simp only [dif_neg h]
    exact ⟨trivial, trivial⟩

theorem any_keys {α : Type} (m : List (Str × α)) (k : Str) :
    (m.any fun kv => decide (kv.1 = k))
      = ((m.map fun kv => kv.1).any fun x => decide (x = k)) := by
  induction m with
  | nil => rfl
  | cons a t ih => simp [ih]

theorem mapSet_keys_congr {α β : Type} (m1 : List (Str × α)) (m2 : List (Str × β))
    (k : Str) (v1 : α) (v2 : β)
    (h : m1.map (fun kv => kv.1) = m2.map (fun kv => kv.1)) :
    (mapSet m1 k v1).map (fun kv => kv.1) = (mapSet m2 k v2).map (fun kv => kv.1) := by
  have hany : (m1.any (fun kv => decide (kv.1 = k)))
      = (m2.any (fun kv => decide (kv.1 = k))) := by
    rw [any_keys, any_keys, h]
  have hupd : ∀ {γ : Type} (m : List (Str × γ)) (v : γ),
      (m.map (fun kv => if kv.1 = k then (k, v) else kv)).map (fun kv => kv.1)
        = (m.map (fun kv => kv.1)).map (fun x => if x = k then k else x) := by
    intro γ m v
    rw [List.map_map, List.map_map]
    apply List.map_congr_left
    intro kv _
    by_cases hk : kv.1 = k <;> simp [hk]
  rw [mapSet, mapSet]
  by_cases hc : m1.any (fun kv => decide (kv.1 = k)) = true
  · rw [if_pos hc, if_pos (hany ▸ hc), hupd, hupd, h]
  · rw [if_neg hc, if_neg (fun hx => hc (hany ▸ hx))]
    simp [h]

theorem mapSet_keys_mem {α : Type} (m : List (Str × α)) (k : Str) (v : α) (u : Str)
    (hu : u ∈ (mapSet m k v).map (fun kv => kv.1)) :
    u ∈ m.map (fun kv => kv.1) ∨ u = k := by
  rw [mapSet] at hu
  by_cases hc : m.any (fun kv => decide (kv.1 = k)) = true
  · rw [if_pos hc, List.map_map] at hu
    rcases List.mem_map.mp hu with ⟨kv, hkv, hval⟩
    by_cases hk : kv.1 = k
    · right
      simp only [Function.comp, hk, if_pos] at hval
      exact hval.symm
    · left
      refine List.mem_map.mpr ⟨kv, hkv, ?_⟩
      simpa only [Function.comp, hk, if_neg, ite_false] using hval
  · rw [if_neg hc, List.map_append] at hu
    rcases List.mem_append.mp hu with hin | hk
    · exact Or.inl hin
    · right
      simpa using hk

theorem index_pages_inv (cleanF : Str → Str) (svc : SummarySvc) (pages : List Page)
    (st : IndexState)
    (h1 : st.summaries.map (fun kv => kv.1) = st.full_content.map (fun kv => kv.1)) :
    ((index_pages cleanF svc pages st).summaries.map (fun kv => kv.1) =
      (index_pages cleanF svc pages st).full_content.map (fun kv => kv.1)) ∧
    ∀ u ∈ (index_pages cleanF svc pages st).full_content.map (fun kv => kv.1),
      u ∈ st.full_content.map (fun kv => kv.1) ∨
        ∃ p ∈ pages, p.url = u ∧ 100 ≤ (pyStrip (cleanF p.html)).length := by
  induction pages generalizing st with
  | nil => exact ⟨h1, fun u hu => Or.inl hu⟩
  | cons page rest ih =>
    rw [index_pages]
    by_cases hlen : (pyStrip (cleanF page.html)).length < 100
    · rw [if_pos hlen]
      rcases ih st h1 with ⟨ha, hb⟩
      refine ⟨ha, fun u hu => ?_⟩
      rcases hb u hu with h | ⟨p, hp, he, hl⟩
      · exact Or.inl h
      · exact Or.inr ⟨p, List.mem_cons_of_mem _ hp, he, hl⟩
    · rw [if_neg hlen]
      set st1 : IndexState :=
        { st with full_content := mapSet st.full_content page.url (cleanF page.html) } with hst1
      have hmaps := generate_summary_maps svc page.url (cleanF page.html) 0 st1
      set r := generate_summary svc page.url (cleanF page.html) 0 st1 with hr
      set st3 : IndexState := { r.2 with summaries := mapSet r.2.summaries page.url r.1 } with hst3
      have hfc : st3.full_content = mapSet st.full_content page.url (cleanF page.html) := by
        show r.2.full_content = _
        rw [hmaps.2]
      have hkeys3 : st3.summaries.map (fun kv => kv.1)
          = st3.full_content.map (fun kv => kv.1) := by
        show (mapSet r.2.summaries page.url r.1).map (fun kv => kv.1)
          = st3.full_content.map (fun kv => kv.1)
        rw [hmaps.1, hfc]
        exact mapSet_keys_congr _ _ _ _ _ h1
      rcases ih st3 hkeys3 with ⟨ha, hb⟩
      refine ⟨ha, fun u hu => ?_⟩
      rcases hb u hu with h | ⟨p, hp, he, hl⟩
      · rw [hfc] at h
        rcases mapSet_keys_mem _ _ _ _ h with hin | hk
        · exact Or.inl hin
        · exact Or.inr ⟨page, List.mem_cons_self _ _, hk.symm, by omega⟩
      · exact Or.inr ⟨p, List.mem_cons_of_mem _ hp, he, hl⟩

/-- Claim C7: after indexing, `summaries` and `full_content` have identical
key sequences, and every indexed URL comes from a crawled page whose cleaned,
stripped text has at least 100 characters; in particular a summarisation
failure (which only changes counters and the failure list) never removes a
page from either map. -/
theorem index_site_inv (pages : List Page) (cleanF : Str → Str) (svc : SummarySvc) :
    ((index_site pages cleanF svc).summaries.map (fun kv => kv.1) =
      (index_site pages cleanF svc).full_content.map (fun kv => kv.1)) ∧
    ∀ u ∈ (index_site pages cleanF svc).full_content.map (fun kv => kv.1),
      ∃ p ∈ pages, p.url = u ∧ 100 ≤ (pyStrip (cleanF p.html)).length := by
  rcases index_pages_inv cleanF svc pages emptyIndexState rfl with ⟨ha, hb⟩
  refine ⟨ha, fun u hu => ?_⟩
  rcases hb u hu with h | h
  · simp [emptyIndexState] at h
  · exact h

theorem crawl_inv_step (g : SiteGraph) (bd : Str) (max_pages : Nat)
    (visited0 : List Str) (s s' : CrawlState)
    (hstep : CrawlStep g bd max_pages s s') (hinv : CrawlInv max_pages visited0 s) :
    CrawlInv max_pages visited0 s' := by
  obtain ⟨h1, h2, h3, h4, h5⟩ := hinv
  cases hstep with
  | skip_visited url hmem hcap hvis =>
    exact ⟨h1, h2, h3, h4, h5⟩
  | fetch_fail url hmem hcap hvis hg =>
    refine ⟨?_, ?_, ?_, ?_, ?_⟩
    · simp only [List.nodup_append]
      exact ⟨h1, List.nodup_singleton url, by
        intro a ha hb
        simp at hb
        exact hvis (hb ▸ h2 a ha)⟩
    · intro u hu
      rcases List.mem_append.mp hu with h | h
      · exact List.mem_append.mpr (Or.inl (h2 u h))
      · exact List.mem_append.mpr (Or.inr h)
    · intro u hu
      refine ⟨List.mem_append.mpr (Or.inl (h3 u hu).1), ?_⟩
      intro hc
      rcases List.mem_append.mp hc with h | h
      · exact (h3 u hu).2 h
      · simp at h
        exact hvis (h ▸ (h3 u hu).1)
    · intro u hu
      exact List.mem_append.mpr (Or.inl (h4 u hu))
    · exact h5
  | fetch_ok url html links hmem hcap hvis hg =>
    refine ⟨?_, ?_, ?_, ?_, ?_⟩
    · simp only [List.nodup_append]
      exact ⟨h1, List.nodup_singleton url, by
        intro a ha hb
        simp at hb
        exact hvis (hb ▸ h2 a ha)⟩
    · intro u hu
      rcases List.mem_append.mp hu with h | h
      · exact List.mem_append.mpr (Or.inl (h2 u h))
      · exact List.mem_append.mpr (Or.inr h)
    · intro u hu
      refine ⟨List.mem_append.mpr (Or.inl (h3 u hu).1), ?_⟩
      intro hc
      rcases List.mem_append.mp hc with h | h
      · exact (h3 u hu).2 h
      · simp at h
        exact hvis (h ▸ (h3 u hu).1)
    · intro u hu
      simp only [List.map_append] at hu
      rcases List.mem_append.mp hu with h | h
      · exact List.mem_append.mpr (Or.inl (h4 u h))
      · simp at h
        exact List.mem_append.mpr (Or.inr (by simp [h]))
    · simp only [List.length_append, List.length_singleton]
      omega

theorem crawl_inv_reach (g : SiteGraph) (base_url : Str) (max_pages : Nat)
    (visited0 : List Str) (s : CrawlState)
    (h : CrawlReach g base_url max_pages visited0 s) :
    CrawlInv max_pages visited0 s := by
  induction h with
  | refl =>
    refine ⟨List.nodup_nil, by simp [crawl_init], ?_, by simp [crawl_init],
      by simp [crawl_init]⟩
    intro u hu
    exact ⟨hu, by simp [crawl_init]⟩
  | tail hr hstep ih => exact crawl_inv_step _ _ _ _ _ _ hstep ih

/-- Claim C10: the visited set of a `Crawler` instance starts empty and is
never cleared, so it persists across `crawl_site` calls: a URL fetched in an
earlier run (whose final visited set is contained in the later run's starting
set `v`) is never fetched and never returned by any later run. -/
theorem crawl_visited_persists (g1 g2 : SiteGraph) (base1 base2 : Str)
    (max1 max2 : Nat) (v : List Str) (s1 s2 : CrawlState) (u : Str)
    (h1 : CrawlReach g1 base1 max1 crawler_initial_visited s1)
    (hu : u ∈ s1.fetched)
    (hsub : ∀ x ∈ s1.visited, x ∈ v)
    (h2 : CrawlReach g2 base2 max2 v s2) :
    u ∉ s2.fetched ∧ u ∉ s2.pages.map (fun p => p.1) := by
  have hv : u ∈ v := hsub u ((crawl_inv_reach _ _ _ _ _ h1).2.1 u hu)
  have hinv2 := crawl_inv_reach _ _ _ _ _ h2
  have hnf : u ∉ s2.fetched := (hinv2.2.2.1 u hv).2
  exact ⟨hnf, fun hp => hnf (hinv2.2.2.2.1 u hp)⟩

theorem wReach1 : CrawlReach wGraph wBase 1 crawler_initial_visited wS1 :=
  Relation.ReflTransGen.tail Relation.ReflTransGen.refl
    (@CrawlStep.fetch_ok wGraph ((urlparse wBase).netloc) 1
      (crawl_init wBase crawler_initial_visited) wBase (S ("")) []
      (by decide) (by decide) (by decide) (by decide))

theorem wReach2 : CrawlReach wGraph wBase 1 wS1.visited wS2 :=
  Relation.ReflTransGen.tail Relation.ReflTransGen.refl
    (@CrawlStep.skip_visited wGraph ((urlparse wBase).netloc) 1
      (crawl_init wBase wS1.visited) wBase (by decide) (by decide) (by decide))

/-- Witness for C10: a two-run scenario on a one-page site; the page fetched
in run one is neither fetched nor returned in run two. -/
theorem crawl_visited_persists_witness :
    wBase ∉ wS2.fetched ∧ wBase ∉ wS2.pages.map (fun p => p.1) :=
  crawl_visited_persists wGraph wGraph wBase wBase 1 1 wS1.visited wS1 wS2 wBase
    wReach1 (by decide) (fun x hx => hx) wReach2

/-- Claim C6, counterexample: the seed is put on the frontier without being
normalised, so with seed `http://h/page#f` whose page links to
`http://h/page`, one run reaches a state having fetched both URLs — the same
normalized URL twice. -/
theorem crawl_normalized_dup_counterexample :
    CrawlReach cGraph cBase 2 crawler_initial_visited cS2 ∧
    cS2.fetched.map normalize_url = [cNorm, cNorm] ∧
    ¬ (cS2.fetched.map normalize_url).Nodup := by
  refine ⟨?_, by decide, by decide⟩
  have h1 : CrawlStep cGraph ((urlparse cBase).netloc) 2
      (crawl_init cBase crawler_initial_visited) cS1 :=
    @CrawlStep.fetch_ok cGraph ((urlparse cBase).netloc) 2
      (crawl_init cBase crawler_initial_visited) cBase (S ("")) [cNorm]
      (by decide) (by decide) (by decide) (by decide)
  have h2 : CrawlStep cGraph ((urlparse cBase).netloc) 2 cS1 cS2 :=
    @CrawlStep.fetch_ok cGraph ((urlparse cBase).netloc) 2
      cS1 cNorm (S ("")) []
      (by decide) (by decide) (by decide) (by decide)
  exact Relation.ReflTransGen.tail
    (Relation.ReflTransGen.tail Relation.ReflTransGen.refl h1) h2

/-- Claim C5, counterexample: `_should_skip_url` tests the whole lowercased
URL with `endswith`, not the path: the normalized URL `http://h/x?f=.pdf`
(a fixed point of normalisation) is skipped although its path `/x` ends with
no listed extension. -/
theorem should_skip_url_query_counterexample :
    should_skip_url (S ("http://h/x?f=.pdf")) = true ∧
    normalize_url (S ("http://h/x?f=.pdf")) = S ("http://h/x?f=.pdf") ∧
    ∀ ext ∈ skip_extensions, ¬ (ext <:+ lowerStr (urlparse (S ("http://h/x?f=.pdf"))).path) := by
  refine ⟨by decide, by decide, by decide⟩

/-- Claim C5, amended: the filter skips a URL exactly when the entire URL,
lowercased, ends with one of `.pdf .jpg .jpeg .png .gif .zip .mp4` (for URLs
with empty query, params and fragment whose path carries the extension this
coincides with the path test, but in general the whole string is tested). -/
theorem should_skip_url_iff (url : Str) :
    should_skip_url url = true ↔ ∃ ext ∈ skip_extensions, ext <:+ lowerStr url := by
  simp [should_skip_url]

theorem tu_append_du (p : Char → Bool) (l : Str) :
    takeUntilP p l ++ dropUntilP p l = l := by
  induction l with
  | nil => rfl
  | cons a t ih =>
    by_cases h : p a = true
    · simp [takeUntilP, dropUntilP, h]
    · simp only [takeUntilP, dropUntilP, h]
      simp [ih, h]

theorem tu_all (p : Char → Bool) (l : Str) :
    ∀ a ∈ takeUntilP p l, p a = false := by
  induction l with
  | nil => simp [takeUntilP]
  | cons a t ih =>
    by_cases h : p a = true
    · simp [takeUntilP, h]
    · simp only [takeUntilP, h]
      simp only [Bool.false_eq_true, if_false]
      intro b hb
      rcases List.mem_cons.mp hb with rfl | hb
      · simpa using h
      · exact ih b hb

theorem tu_eq_self (p : Char → Bool) (l : Str) (h : ∀ a ∈ l, p a = false) :
    takeUntilP p l = l := by
  induction l with
  | nil => rfl
  | cons a t ih =>
    have ha := h a (List.mem_cons_self _ _)
    simp only [takeUntilP, ha]
    simp only [Bool.false_eq_true, if_false, List.cons.injEq, true_and]
    exact ih (fun b hb => h b (List.mem_cons_of_mem _ hb))

theorem du_eq_nil (p : Char → Bool) (l : Str) (h : ∀ a ∈ l, p a = false) :
    dropUntilP p l = [] := by
  induction l with
  | nil => rfl
  | cons a t ih =>
    have ha := h a (List.mem_cons_self _ _)
    simp only [dropUntilP, ha]
    simp only [Bool.false_eq_true, if_false]
    exact ih (fun b hb => h b (List.mem_cons_of_mem _ hb))

theorem tu_append_right (p : Char → Bool) (x y : Str) (h : ∀ a ∈ x, p a = false) :
    takeUntilP p (x ++ y) = x ++ takeUntilP p y := by
  induction x with
  | nil => rfl
  | cons a t ih =>
    have ha := h a (List.mem_cons_self _ _)
    simp only [List.cons_append, takeUntilP, ha]
    simp only [Bool.false_eq_true, if_false, List.cons.injEq, true_and]
    exact ih (fun b hb => h b (List.mem_cons_of_mem _ hb))

theorem du_append_right (p : Char → Bool) (x y : Str) (h : ∀ a ∈ x, p a = false) :
    dropUntilP p (x ++ y) = dropUntilP p y := by
  induction x with
  | nil => rfl
  | cons a t ih =>
    have ha := h a (List.mem_cons_self _ _)
    simp only [List.cons_append, dropUntilP, ha]
    simp only [Bool.false_eq_true, if_false]
    exact ih (fun b hb => h b (List.mem_cons_of_mem _ hb))

theorem tu_cons_pos (p : Char → Bool) (a : Char) (t : Str) (h : p a = true) :
    takeUntilP p (a :: t) = [] := by
  simp [takeUntilP, h]

theorem du_cons_pos (p : Char → Bool) (a : Char) (t : Str) (h : p a = true) :
    dropUntilP p (a :: t) = a :: t := by
  simp [dropUntilP, h]

theorem tu_pfx (p : Char → Bool) (l : Str) : takeUntilP p l <+: l :=
  ⟨dropUntilP p l, tu_append_du p l⟩


theorem extract_scheme_of_not (url : Str) (h : ¬ schemeyCond url) :
    extract_scheme url = ([], url) := by
  rw [extract_scheme]
  by_cases hc : (':') ∈ url
  · rw [if_pos hc, if_neg]
    intro ⟨h1, h2, h3⟩
    exact h ⟨hc, h1, h2, h3⟩
  · rw [if_neg hc]

theorem extract_scheme_of (url : Str) (h : schemeyCond url) :
    extract_scheme url =
      (lowerStr (takeUntilP (fun a => a = (':')) url),
       (dropUntilP (fun a => a = (':')) url).tail) := by
  rw [extract_scheme, if_pos h.1, if_pos ⟨h.2.1, h.2.2.1, h.2.2.2⟩]

theorem tu_append_left (p : Char → Bool) (x y : Str) (h : ∃ a ∈ x, p a = true) :
    takeUntilP p (x ++ y) = takeUntilP p x ∧
    dropUntilP p (x ++ y) = dropUntilP p x ++ y := by
  induction x with
  | nil => simp at h
  | cons a t ih =>
    by_cases ha : p a = true
    · simp [takeUntilP, dropUntilP, ha]
    · have : ∃ b ∈ t, p b = true := by
        rcases h with ⟨b, hb, hpb⟩
        rcases List.mem_cons.mp hb with rfl | hb
        · exact absurd hpb ha
        · exact ⟨b, hb, hpb⟩
      have := ih this
      simp only [List.cons_append, takeUntilP, dropUntilP, ha]
      simp only [Bool.false_eq_true, if_false, List.cons.injEq, true_and]
      exact ⟨this.1, this.2⟩

theorem schemey_parts (σ rest : Str) (hσne : σ ≠ []) (hcol : (':') ∉ σ)
    (halpha : (σ.headD (' ')).isAlpha = true) (hall : σ.all isSchemeChar = true) :
    schemeyCond (σ ++ (':') :: rest) ∧
    takeUntilP (fun a => a = (':')) (σ ++ (':') :: rest) = σ ∧
    (dropUntilP (fun a => a = (':')) (σ ++ (':') :: rest)).tail = rest := by
  have hne : ∀ a ∈ σ, (fun a => decide (a = (':'))) a = false := by
    intro a ha
    simp only [decide_eq_false_iff_not]
    exact fun hc => hcol (hc ▸ ha)
  have htu : takeUntilP (fun a => a = (':')) (σ ++ (':') :: rest) = σ := by
    rw [tu_append_right _ _ _ hne, tu_cons_pos _ _ _ (by simp)]
    simp
  have hdu : dropUntilP (fun a => a = (':')) (σ ++ (':') :: rest) = (':') :: rest := by
    rw [du_append_right _ _ _ hne, du_cons_pos _ _ _ (by simp)]
  refine ⟨⟨by simp, ?_, ?_, ?_⟩, htu, by rw [hdu]; rfl⟩
  · rw [htu]; exact hσne
  · rw [htu]; exact halpha
  · rw [htu]; exact hall

theorem extract_scheme_prefix_form (σ rest : Str) (hσne : σ ≠ [])
    (hcol : (':') ∉ σ) (halpha : (σ.headD (' ')).isAlpha = true)
    (hall : σ.all isSchemeChar = true) :
    extract_scheme (σ ++ (':') :: rest) = (lowerStr σ, rest) := by
  obtain ⟨hs, htu, hdu⟩ := schemey_parts σ rest hσne hcol halpha hall
  rw [extract_scheme_of _ hs, htu, hdu]

theorem not_schemey_head (c : Char) (rest : Str) (h : c.isAlpha = false) :
    ¬ schemeyCond (c :: rest) := by
  intro ⟨hmem, hne, hhead, _⟩
  by_cases hc : c = (':')
  · rw [tu_cons_pos] at hne
    · exact hne rfl
    · simp [hc]
  · rw [takeUntilP] at hhead
    simp only [decide_eq_true_eq, hc, if_false] at hhead
    simp only [List.headD] at hhead
    rw [hhead] at h
    simp at h

theorem schemey_append_left_iff (x y : Str) (hcol : (':') ∈ x) :
    schemeyCond (x ++ y) ↔ schemeyCond x := by
  have hx : ∃ a ∈ x, (fun a => decide (a = (':'))) a = true := ⟨(':'), hcol, by simp⟩
  have := tu_append_left (fun a => a = (':')) x y hx
  constructor
  · intro ⟨h1, h2, h3, h4⟩
    rw [this.1] at h2 h3 h4
    exact ⟨hcol, h2, h3, h4⟩
  · intro ⟨h1, h2, h3, h4⟩
    exact ⟨by simp [hcol], by rw [this.1]; exact h2, by rw [this.1]; exact h3,
      by rw [this.1]; exact h4⟩

theorem schemey_pfx (x u : Str) (hpre : x <+: u) (h : schemeyCond x) :
    schemeyCond u := by
  rcases hpre with ⟨t, rfl⟩
  exact (schemey_append_left_iff x t h.1).mpr h

theorem not_schemey_qpart (pathpart κ : Str) (hns : ¬ schemeyCond pathpart) :
    ¬ schemeyCond (pathpart ++ ('?') :: κ) := by
  intro h
  by_cases hc : (':') ∈ pathpart
  · exact hns ((schemey_append_left_iff _ _ hc).mp h)
  · obtain ⟨h1, h2, h3, h4⟩ := h
    have hne : ∀ a ∈ pathpart, (fun a => decide (a = (':'))) a = false := by
      intro a ha
      simp only [decide_eq_false_iff_not]
      exact fun hcc => hc (hcc ▸ ha)
    rw [tu_append_right _ _ _ hne] at h4
    have hq : takeUntilP (fun a => a = (':')) (('?') :: κ)
        = ('?') :: takeUntilP (fun a => a = (':')) κ := by
      rw [takeUntilP]
      simp
    rw [hq] at h4
    have := List.all_eq_true.mp h4 ('?') (by simp)
    simp [isSchemeChar] at this

theorem splitnetloc2_yes (ν rest : Str) (hν : ∀ a ∈ ν, isNetDelim a = false)
    (hrest : rest = [] ∨ isNetDelim (rest.headD (' ')) = true) :
    splitnetloc2 (('/') :: ('/') :: (ν ++ rest)) = (ν, rest) := by
  have htake : (('/') :: ('/') :: (ν ++ rest)).take 2 = [('/'), ('/')] := rfl
  rw [splitnetloc2, if_pos htake]
  have hdrop : (('/') :: ('/') :: (ν ++ rest)).drop 2 = ν ++ rest := rfl
  rw [hdrop]
  have htu2 : takeUntilP isNetDelim rest = [] := by
    rcases hrest with rfl | h
    · rfl
    · cases rest with
      | nil => rfl
      | cons c r => exact tu_cons_pos _ _ _ (by simpa using h)
  have hdu2 : dropUntilP isNetDelim rest = rest := by
    rcases hrest with rfl | h
    · rfl
    · cases rest with
      | nil => rfl
      | cons c r => exact du_cons_pos _ _ _ (by simpa using h)
  rw [tu_append_right _ _ _ hν, du_append_right _ _ _ hν, htu2, hdu2]
  simp

theorem splitnetloc2_no (url : Str) (h : url.take 2 ≠ [('/'), ('/')]) :
    splitnetloc2 url = ([], url) := by
  rw [splitnetloc2, if_neg h]

theorem scheme_char_ne (a : Char) (h : isSchemeChar a = true) :
    a ≠ ('#') ∧ a ≠ ('?') ∧ a ≠ ('/') ∧ a ≠ (':') := by
  refine ⟨?_, ?_, ?_, ?_⟩ <;> (intro he; rw [he] at h; revert h; decide)

theorem netloc_delim_ne (a : Char) (h : isNetDelim a = false) :
    a ≠ ('#') ∧ a ≠ ('?') ∧ a ≠ ('/') := by
  refine ⟨?_, ?_, ?_⟩ <;> (intro he; rw [he] at h; revert h; decide)

theorem urlsplit_parts (out σ rest ν after path κ : Str)
    (h1 : extract_scheme out = (σ, rest))
    (h2 : splitnetloc2 rest = (ν, after))
    (h3 : ('#') ∉ after)
    (h4 : after = path ++ (if κ = [] then [] else ('?') :: κ))
    (h5 : ('?') ∉ path) :
    urlsplit out = ⟨σ, ν, path, κ, []⟩ := by
  rw [urlsplit]
  simp only [h1, h2, if_neg h3]
  by_cases hκ : κ = []
  · subst hκ
    have h4' : after = path := by simpa using h4
    subst h4'
    simp only [if_neg h5]
  · rw [if_neg hκ] at h4
    subst h4
    have hin : ('?') ∈ path ++ ('?') :: κ := by simp
    rw [if_pos hin]
    have hne : ∀ a ∈ path, (fun a => decide (a = ('?'))) a = false := by
      intro a ha
      simp only [decide_eq_false_iff_not]
      exact fun hc => h5 (hc ▸ ha)
    rw [tu_append_right _ _ _ hne, du_append_right _ _ _ hne,
      tu_cons_pos _ _ _ (by simp), du_cons_pos _ _ _ (by simp)]
    simp


theorem urlunsplit_eq (σ ν pp κ : Str) :
    urlunsplit σ ν pp κ [] =
      (if σ ≠ [] then σ ++ (':') :: urlbody σ ν pp else urlbody σ ν pp)
        ++ (if κ = [] then [] else ('?') :: κ) := by
  rw [urlunsplit, urlbody]
  by_cases hκ : κ = [] <;> by_cases hσ : σ ≠ [] <;> simp [hκ, hσ]

theorem take_one_eq (l : Str) (c : Char) : l.take 1 = [c] ↔ ∃ t, l = c :: t := by
  cases l <;> simp

theorem urlsplit_urlunsplit (σ ν pp κ : Str)
    (hσ : σ = [] ∨ ((':') ∉ σ ∧ (σ.headD (' ')).isAlpha = true ∧
      σ.all isSchemeChar = true ∧ lowerStr σ = σ))
    (hν : ∀ a ∈ ν, isNetDelim a = false)
    (hppq : ('?') ∉ pp) (hpph : ('#') ∉ pp) (hκh : ('#') ∉ κ)
    (hslash : ν ≠ [] → (pp = [] ∨ pp.take 1 = [('/')]))
    (hns : σ = [] → ν = [] → ¬ schemeyCond pp)
    (hD : ν ≠ [] ∨ pp.take 2 ≠ [('/'), ('/')]) :
    urlsplit (urlunsplit σ ν pp κ []) =
      ⟨σ, ν,
       (if ν = [] ∧ σ ≠ [] ∧ σ ∈ uses_netloc ∧ pp ≠ [] ∧ pp.take 1 ≠ [('/')] then
         ('/') :: pp else pp),
       κ, []⟩ := by
  have hκne : ('#') ∉ (if κ = [] then ([] : Str) else ('?') :: κ) := by
    by_cases hk : κ = []
    · simp [hk]
    · rw [if_neg hk]
      intro ha
      rcases List.mem_cons.mp ha with hh | ha
      · exact absurd hh (by decide)
      · exact hκh ha
  rw [urlunsplit_eq]
  by_cases hb : ν ≠ [] ∨ (σ ≠ [] ∧ σ ∈ uses_netloc ∧ pp.take 2 ≠ [('/'), ('/')])
  · have hbody : urlbody σ ν pp
        = ('/') :: ('/') :: (ν ++ (if pp ≠ [] ∧ pp.take 1 ≠ [('/')] then ('/') :: pp else pp)) := by
      rw [urlbody, if_pos hb]
    set pmt := (if pp ≠ [] ∧ pp.take 1 ≠ [('/')] then ('/') :: pp else pp) with hpmt
    have hpmtc : pmt = ('/') :: pp ∨ pmt = pp := by
      by_cases hc : pp ≠ [] ∧ pp.take 1 ≠ [('/')]
      · left; rw [hpmt, if_pos hc]
      · right; rw [hpmt, if_neg hc]
    have hpmtq : ('?') ∉ pmt := by
      rcases hpmtc with he | he <;> rw [he]
      · intro ha
        rcases List.mem_cons.mp ha with hh | ha
        · exact absurd hh (by decide)
        · exact hppq ha
      · exact hppq
    have hpmth : ('#') ∉ pmt := by
      rcases hpmtc with he | he <;> rw [he]
      · intro ha
        rcases List.mem_cons.mp ha with hh | ha
        · exact absurd hh (by decide)
        · exact hpph ha
      · exact hpph
    have hrest : (pmt ++ (if κ = [] then ([] : Str) else ('?') :: κ)) = [] ∨
        isNetDelim ((pmt ++ (if κ = [] then ([] : Str) else ('?') :: κ)).headD (' ')) = true := by
      by_cases hc : pp ≠ [] ∧ pp.take 1 ≠ [('/')]
      · right
        rw [hpmt, if_pos hc]
        rfl
      · rw [hpmt, if_neg hc]
        push_neg at hc
        by_cases hpp : pp = []
        · subst hpp
          by_cases hk : κ = []
          · left; simp [hk]
          · right; rw [if_neg hk]; rfl
        · rcases (take_one_eq pp ('/')).mp (hc hpp) with ⟨t, rfl⟩
          right
          rfl
    have h2 : splitnetloc2 (urlbody σ ν pp ++ (if κ = [] then ([] : Str) else ('?') :: κ))
        = (ν, pmt ++ (if κ = [] then ([] : Str) else ('?') :: κ)) := by
      rw [hbody]
      rw [show (('/') :: ('/') :: (ν ++ pmt)) ++ (if κ = [] then ([] : Str) else ('?') :: κ)
          = ('/') :: ('/') :: (ν ++ (pmt ++ (if κ = [] then ([] : Str) else ('?') :: κ)))
        from by simp [List.append_assoc]]
      exact splitnetloc2_yes _ _ hν hrest
    have h3 : ('#') ∉ pmt ++ (if κ = [] then ([] : Str) else ('?') :: κ) := by
      intro ha
      rcases List.mem_append.mp ha with ha | ha
      · exact hpmth ha
      · exact hκne ha
    have hpmtval : pmt = (if ν = [] ∧ σ ≠ [] ∧ σ ∈ uses_netloc ∧ pp ≠ [] ∧ pp.take 1 ≠ [('/')]
        then ('/') :: pp else pp) := by
      by_cases hνe : ν = []
      · have htrip : σ ≠ [] ∧ σ ∈ uses_netloc ∧ pp.take 2 ≠ [('/'), ('/')] := by
          rcases hb with hx | hx
          · exact absurd hνe hx
          · exact hx
        by_cases hc : pp ≠ [] ∧ pp.take 1 ≠ [('/')]
        · rw [hpmt, if_pos hc, if_pos ⟨hνe, htrip.1, htrip.2.1, hc.1, hc.2⟩]
        · rw [hpmt, if_neg hc, if_neg]
          intro hcc
          exact hc ⟨hcc.2.2.2.1, hcc.2.2.2.2⟩
      · have hsl := hslash hνe
        have hcneg : ¬ (pp ≠ [] ∧ pp.take 1 ≠ [('/')]) := by
          rcases hsl with he | he
          · intro hcc; exact hcc.1 he
          · intro hcc; exact hcc.2 he
        rw [hpmt, if_neg hcneg, if_neg]
        intro hcc
        exact hνe hcc.1
    rcases hσ with rfl | ⟨hcol, halpha, hall, hlow⟩
    · rw [if_neg (by simp)]
      have h1 : extract_scheme (urlbody [] ν pp ++ (if κ = [] then ([] : Str) else ('?') :: κ))
          = ([], urlbody [] ν pp ++ (if κ = [] then ([] : Str) else ('?') :: κ)) := by
        apply extract_scheme_of_not
        rw [hbody]
        rw [show (('/') :: ('/') :: (ν ++ pmt)) ++ (if κ = [] then ([] : Str) else ('?') :: κ)
            = ('/') :: (('/') :: (ν ++ pmt) ++ (if κ = [] then ([] : Str) else ('?') :: κ))
          from by simp]
        exact not_schemey_head _ _ (by decide)
      rw [urlsplit_parts _ _ _ _ _ pmt κ h1 h2 h3 rfl hpmtq]
      rw [hpmtval]
    · have hσne : σ ≠ [] := by
        intro hc
        rw [hc] at halpha
        exact absurd halpha (by decide)
      rw [if_pos hσne]
      have h1 : extract_scheme ((σ ++ (':') :: urlbody σ ν pp) ++ (if κ = [] then ([] : Str) else ('?') :: κ))
          = (σ, urlbody σ ν pp ++ (if κ = [] then ([] : Str) else ('?') :: κ)) := by
        rw [show (σ ++ (':') :: urlbody σ ν pp) ++ (if κ = [] then ([] : Str) else ('?') :: κ)
            = σ ++ (':') :: (urlbody σ ν pp ++ (if κ = [] then ([] : Str) else ('?') :: κ))
          from by simp]
        rw [extract_scheme_prefix_form _ _ hσne hcol halpha hall, hlow]
      rw [urlsplit_parts _ _ _ _ _ pmt κ h1 h2 h3 rfl hpmtq]
      rw [hpmtval]
  · push_neg at hb
    obtain ⟨hνe, hb2⟩ := hb
    subst hνe
    have hD' : pp.take 2 ≠ [('/'), ('/')] := by
      rcases hD with hx | hx
      · exact absurd rfl hx
      · exact hx
    have hbody : urlbody σ [] pp = pp := by
      rw [urlbody, if_neg]
      intro hc
      rcases hc with hc | hc
      · exact hc rfl
      · exact hc.2.2 (hb2 hc.1 hc.2.1)
    have htk : (pp ++ (if κ = [] then ([] : Str) else ('?') :: κ)).take 2 ≠ [('/'), ('/')] := by
      have hκp : (if κ = [] then ([] : Str) else ('?') :: κ) = [] ∨
          ∃ r, (if κ = [] then ([] : Str) else ('?') :: κ) = ('?') :: r := by
        by_cases hk : κ = []
        · left; rw [if_pos hk]
        · right; exact ⟨κ, by rw [if_neg hk]⟩
      intro hc
      match pp, hD', hc with
      | [], hD', hc =>
        rcases hκp with he | ⟨r, he⟩
        · rw [List.nil_append, he] at hc
          simp at hc
        · rw [List.nil_append, he] at hc
          simp at hc
      | [c], hD', hc =>
        rcases hκp with he | ⟨r, he⟩
        · rw [he, List.append_nil] at hc
          simp at hc
        · rw [he] at hc
          simp at hc
      | c :: d :: t, hD', hc =>
        simp at hc
        exact hD' (by simp [hc.1, hc.2])
    have h2 : splitnetloc2 (urlbody σ [] pp ++ (if κ = [] then ([] : Str) else ('?') :: κ))
        = ([], pp ++ (if κ = [] then ([] : Str) else ('?') :: κ)) := by
      rw [hbody]
      exact splitnetloc2_no _ htk
    have h3 : ('#') ∉ pp ++ (if κ = [] then ([] : Str) else ('?') :: κ) := by
      intro ha
      rcases List.mem_append.mp ha with ha | ha
      · exact hpph ha
      · exact hκne ha
    have hcondF : ¬ (([] : Str) = [] ∧ σ ≠ [] ∧ σ ∈ uses_netloc ∧ pp ≠ [] ∧ pp.take 1 ≠ [('/')]) := by
      intro hc
      exact hD' (hb2 hc.2.1 hc.2.2.1)
    rcases hσ with rfl | ⟨hcol, halpha, hall, hlow⟩
    · rw [if_neg (by simp)]
      have h1 : extract_scheme (urlbody [] [] pp ++ (if κ = [] then ([] : Str) else ('?') :: κ))
          = ([], urlbody [] [] pp ++ (if κ = [] then ([] : Str) else ('?') :: κ)) := by
        apply extract_scheme_of_not
        rw [hbody]
        by_cases hk : κ = []
        · rw [if_pos hk, List.append_nil]
          exact hns rfl rfl
        · rw [if_neg hk]
          exact not_schemey_qpart _ _ (hns rfl rfl)
      rw [urlsplit_parts _ _ _ _ _ pp κ h1 h2 h3 rfl hppq]
      rw [if_neg hcondF]
    · have hσne : σ ≠ [] := by
        intro hc
        rw [hc] at halpha
        exact absurd halpha (by decide)
      rw [if_pos hσne]
      have h1 : extract_scheme ((σ ++ (':') :: urlbody σ [] pp) ++ (if κ = [] then ([] : Str) else ('?') :: κ))
          = (σ, urlbody σ [] pp ++ (if κ = [] then ([] : Str) else ('?') :: κ)) := by
        rw [show (σ ++ (':') :: urlbody σ [] pp) ++ (if κ = [] then ([] : Str) else ('?') :: κ)
            = σ ++ (':') :: (urlbody σ [] pp ++ (if κ = [] then ([] : Str) else ('?') :: κ))
          from by simp]
        rw [extract_scheme_prefix_form _ _ hσne hcol halpha hall, hlow]
      rw [urlsplit_parts _ _ _ _ _ pp κ h1 h2 h3 rfl hppq]
      rw [if_neg hcondF]

theorem uint32_le_iff (a b : UInt32) : a ≤ b ↔ a.toNat ≤ b.toNat := by
  rw [UInt32.le_def, BitVec.le_def]
  exact Iff.rfl

theorem char_ofNat_toNat (n : Nat) (h : n < 55296) : (Char.ofNat n).toNat = n := by
  have hv : Nat.isValidChar n := Or.inl h
  simp [Char.ofNat, hv, Char.ofNatAux, Char.toNat, UInt32.toNat, UInt32.ofNatCore]

theorem char_toNat_inj (c d : Char) (h : c.toNat = d.toNat) : c = d := by
  cases c with
  | mk v1 h1 =>
    cases d with
    | mk v2 h2 =>
      congr 1
      cases v1
      cases v2
      congr 1
      exact BitVec.toNat_injective h

theorem toLower_toNat (c : Char) : (Char.toLower c).toNat =
    if 65 ≤ c.toNat ∧ c.toNat ≤ 90 then c.toNat + 32 else c.toNat := by
  rw [Char.toLower]
  by_cases h : 65 ≤ c.toNat ∧ c.toNat ≤ 90
  · rw [if_pos h, if_pos h]
    exact char_ofNat_toNat _ (by omega)
  · rw [if_neg h, if_neg h]

theorem isUpper_iff (c : Char) : c.isUpper = true ↔ 65 ≤ c.toNat ∧ c.toNat ≤ 90 := by
  simp only [Char.isUpper, Bool.and_eq_true, decide_eq_true_eq, ge_iff_le]
  rw [uint32_le_iff, uint32_le_iff]
  exact Iff.rfl

theorem isLower_iff (c : Char) : c.isLower = true ↔ 97 ≤ c.toNat ∧ c.toNat ≤ 122 := by
  simp only [Char.isLower, Bool.and_eq_true, decide_eq_true_eq, ge_iff_le]
  rw [uint32_le_iff, uint32_le_iff]
  exact Iff.rfl

theorem isDigit_iff (c : Char) : c.isDigit = true ↔ 48 ≤ c.toNat ∧ c.toNat ≤ 57 := by
  simp only [Char.isDigit, Bool.and_eq_true, decide_eq_true_eq, ge_iff_le]
  rw [uint32_le_iff, uint32_le_iff]
  exact Iff.rfl

theorem isAlpha_iff (c : Char) : c.isAlpha = true ↔
    (65 ≤ c.toNat ∧ c.toNat ≤ 90) ∨ (97 ≤ c.toNat ∧ c.toNat ≤ 122) := by
  simp only [Char.isAlpha, Bool.or_eq_true, isUpper_iff, isLower_iff]

theorem toLower_isAlpha (c : Char) (h : c.isAlpha = true) :
    (Char.toLower c).isAlpha = true := by
  rw [isAlpha_iff] at h ⊢
  simp only [toLower_toNat]
  split_ifs <;> omega

theorem toLower_eq_self (c : Char) (h : ¬ (65 ≤ c.toNat ∧ c.toNat ≤ 90)) :
    Char.toLower c = c := by
  apply char_toNat_inj
  rw [toLower_toNat, if_neg h]

theorem toLower_isSchemeChar (c : Char) (h : isSchemeChar c = true) :
    isSchemeChar (Char.toLower c) = true := by
  rw [isSchemeChar] at h
  simp only [Char.isAlphanum, Bool.or_eq_true, decide_eq_true_eq] at h
  rcases h with (((h | h) | h) | h) | h
  · rw [isSchemeChar, Char.isAlphanum]
    simp [toLower_isAlpha c h]
  · have he : Char.toLower c = c := by
      apply toLower_eq_self
      rw [isDigit_iff] at h
      omega
    rw [he, isSchemeChar, Char.isAlphanum]
    simp [h]
  · subst h; decide
  · subst h; decide
  · subst h; decide

theorem toLower_ne_colon (c : Char) (h : c ≠ (':')) : Char.toLower c ≠ (':') := by
  intro hc
  have := congrArg Char.toNat hc
  rw [toLower_toNat] at this
  by_cases hr : 65 ≤ c.toNat ∧ c.toNat ≤ 90
  · rw [if_pos hr] at this
    have hcol : ((':') : Char).toNat = 58 := by decide
    omega
  · rw [if_neg hr] at this
    exact h (char_toNat_inj _ _ this)

theorem toLower_idem (c : Char) : Char.toLower (Char.toLower c) = Char.toLower c := by
  apply char_toNat_inj
  simp only [toLower_toNat]
  split_ifs <;> omega

theorem lowerStr_idem (s : Str) : lowerStr (lowerStr s) = lowerStr s := by
  show (s.map Char.toLower).map Char.toLower = s.map Char.toLower
  rw [List.map_map]
  apply List.map_congr_left
  intro c _
  exact toLower_idem c

theorem lowerStr_eq_nil_iff (s : Str) : lowerStr s = [] ↔ s = [] := by
  rw [lowerStr]
  simp

theorem du_head (p : Char → Bool) (l : Str) (d : Char) :
    dropUntilP p l = [] ∨ p ((dropUntilP p l).headD d) = true := by
  induction l with
  | nil => left; rfl
  | cons a t ih =>
    by_cases h : p a = true
    · right
      rw [du_cons_pos _ _ _ h]
      exact h
    · rw [dropUntilP]
      simp only [h]
      simpa using ih

theorem extract_scheme_fst_nil (u : Str) (h : (extract_scheme u).1 = []) :
    (extract_scheme u).2 = u ∧ ¬ schemeyCond u := by
  by_cases hs : schemeyCond u
  · rw [extract_scheme_of u hs] at h
    exact absurd ((lowerStr_eq_nil_iff _).mp h) hs.2.1
  · rw [extract_scheme_of_not u hs]
    exact ⟨rfl, hs⟩

theorem extract_scheme_inv (u : Str) :
    (extract_scheme u).1 = [] ∨
    ((':') ∉ (extract_scheme u).1 ∧
     ((extract_scheme u).1.headD (' ')).isAlpha = true ∧
     (extract_scheme u).1.all isSchemeChar = true ∧
     lowerStr (extract_scheme u).1 = (extract_scheme u).1) := by
  by_cases hs : schemeyCond u
  · right
    rw [extract_scheme_of u hs]
    obtain ⟨hmem, hne, hhead, hall⟩ := hs
    have hpre := tu_all (fun a => a = (':')) u
    refine ⟨?_, ?_, ?_, lowerStr_idem _⟩
    · intro hc
      rcases List.mem_map.mp hc with ⟨d, hd, hdc⟩
      have : d ≠ (':') := by
        have := hpre d hd
        simpa using this
      exact toLower_ne_colon d this hdc
    · cases he : takeUntilP (fun a => a = (':')) u with
      | nil => exact absurd he hne
      | cons a t =>
        rw [he] at hhead
        show ((lowerStr (a :: t)).headD (' ')).isAlpha = true
        show ((Char.toLower a :: lowerStr t).headD (' ')).isAlpha = true
        simp only [List.headD] at hhead ⊢
        exact toLower_isAlpha a hhead
    · rw [List.all_eq_true] at hall ⊢
      intro c hc
      rcases List.mem_map.mp hc with ⟨d, hd, hdc⟩
      rw [← hdc]
      exact toLower_isSchemeChar d (hall d hd)
  · left
    rw [extract_scheme_of_not u hs]

theorem splitnetloc2_fst_inv (r1 : Str) :
    ∀ a ∈ (splitnetloc2 r1).1, isNetDelim a = false := by
  by_cases h : r1.take 2 = [('/'), ('/')]
  · rw [splitnetloc2, if_pos h]
    exact tu_all _ _
  · rw [splitnetloc2_no _ h]
    simp

theorem splitnetloc2_cases (r1 : Str) :
    splitnetloc2 r1 = ([], r1) ∨
    ((splitnetloc2 r1).2 = [] ∨ isNetDelim (((splitnetloc2 r1).2).headD (' ')) = true) := by
  by_cases h : r1.take 2 = [('/'), ('/')]
  · right
    rw [splitnetloc2, if_pos h]
    exact du_head _ _ _
  · left
    exact splitnetloc2_no _ h

theorem frag_query_facts (r2 : Str) :
    ('#') ∉ (if ('#') ∈ r2 then takeUntilP (fun a => a = ('#')) r2 else r2) ∧
    (let u3 := if ('#') ∈ r2 then takeUntilP (fun a => a = ('#')) r2 else r2
     let path := if ('?') ∈ u3 then takeUntilP (fun a => a = ('?')) u3 else u3
     ('?') ∉ path ∧ ('#') ∉ path ∧ path <+: r2 ∧
       (∀ c, r2.take 1 = [c] → (path = [] ∨ path.take 1 = [c]))) := by
  have hu3hash : ('#') ∉ (if ('#') ∈ r2 then takeUntilP (fun a => a = ('#')) r2 else r2) := by
    by_cases h : ('#') ∈ r2
    · rw [if_pos h]
      intro hc
      have := tu_all (fun a => a = ('#')) r2 ('#') hc
      simp at this
    · rw [if_neg h]
      exact h
  refine ⟨hu3hash, ?_, ?_, ?_, ?_⟩
  · by_cases h : ('?') ∈ (if ('#') ∈ r2 then takeUntilP (fun a => a = ('#')) r2 else r2)
    · rw [if_pos h]
      intro hc
      have := tu_all (fun a => a = ('?')) _ ('?') hc
      simp at this
    · rw [if_neg h]
      exact h
  · by_cases h : ('?') ∈ (if ('#') ∈ r2 then takeUntilP (fun a => a = ('#')) r2 else r2)
    · rw [if_pos h]
      intro hc
      exact hu3hash ((tu_pfx (fun a => a = ('?')) _).subset hc)
    · rw [if_neg h]
      exact hu3hash
  · have h1 : (if ('#') ∈ r2 then takeUntilP (fun a => a = ('#')) r2 else r2) <+: r2 := by
      by_cases h : ('#') ∈ r2
      · rw [if_pos h]; exact tu_pfx _ _
      · rw [if_neg h]
    refine List.IsPrefix.trans ?_ h1
    by_cases h : ('?') ∈ (if ('#') ∈ r2 then takeUntilP (fun a => a = ('#')) r2 else r2)
    · rw [if_pos h]; exact tu_pfx _ _
    · rw [if_neg h]
  · intro c hc
    cases r2 with
    | nil => simp at hc
    | cons a t =>
      simp at hc
      subst hc
      by_cases hh : a = ('#')
      · left
        have hmem : ('#') ∈ a :: t := by simp [hh]
        rw [if_pos hmem, tu_cons_pos _ _ _ (by simp [hh])]
        simp [takeUntilP]
      · by_cases hq : a = ('?')
        · left
          have hu3 : (if ('#') ∈ a :: t then takeUntilP (fun x => x = ('#')) (a :: t) else a :: t)
              = a :: (if ('#') ∈ t then takeUntilP (fun x => x = ('#')) t else t) := by
            by_cases hmem : ('#') ∈ a :: t
            · rw [if_pos hmem, takeUntilP]
              simp only [decide_eq_true_eq, hh, if_false]
              have hmt : ('#') ∈ t := by
                rcases List.mem_cons.mp hmem with he | he
                · exact absurd he.symm hh
                · exact he
              rw [if_pos hmt]
            · rw [if_neg hmem, if_neg (fun hmt => hmem (List.mem_cons_of_mem _ hmt))]
          rw [hu3]
          have : ('?') ∈ a :: (if ('#') ∈ t then takeUntilP (fun x => x = ('#')) t else t) := by
            simp [hq]
          rw [if_pos this, tu_cons_pos _ _ _ (by simp [hq])]
        · right
          have hu3 : (if ('#') ∈ a :: t then takeUntilP (fun x => x = ('#')) (a :: t) else a :: t)
              = a :: (if ('#') ∈ t then takeUntilP (fun x => x = ('#')) t else t) := by
            by_cases hmem : ('#') ∈ a :: t
            · rw [if_pos hmem, takeUntilP]
              simp only [decide_eq_true_eq, hh, if_false]
              have hmt : ('#') ∈ t := by
                rcases List.mem_cons.mp hmem with he | he
                · exact absurd he.symm hh
                · exact he
              rw [if_pos hmt]
            · rw [if_neg hmem, if_neg (fun hmt => hmem (List.mem_cons_of_mem _ hmt))]
          rw [hu3]
          set u3t := (if ('#') ∈ t then takeUntilP (fun x => x = ('#')) t else t) with hu3t
          by_cases hq2 : ('?') ∈ a :: u3t
          · rw [if_pos hq2, takeUntilP]
            simp only [decide_eq_true_eq, hq, if_false]
            rfl
          · rw [if_neg hq2]
            rfl

theorem urlsplit_path (u : Str) : (urlsplit u).path =
    (let r2 := (splitnetloc2 (extract_scheme u).2).2
     let u3 := if ('#') ∈ r2 then takeUntilP (fun a => a = ('#')) r2 else r2
     if ('?') ∈ u3 then takeUntilP (fun a => a = ('?')) u3 else u3) := rfl

theorem not_schemey_nil : ¬ schemeyCond [] := by
  intro h
  exact absurd h.1 (List.not_mem_nil _)

theorem urlsplit_inv (u : Str) :
    ((urlsplit u).scheme = [] ∨
      ((':') ∉ (urlsplit u).scheme ∧ ((urlsplit u).scheme.headD (' ')).isAlpha = true ∧
       (urlsplit u).scheme.all isSchemeChar = true ∧
       lowerStr (urlsplit u).scheme = (urlsplit u).scheme)) ∧
    (∀ a ∈ (urlsplit u).netloc, isNetDelim a = false) ∧
    ('?') ∉ (urlsplit u).path ∧ ('#') ∉ (urlsplit u).path ∧
    ((urlsplit u).netloc ≠ [] → ((urlsplit u).path = [] ∨ (urlsplit u).path.take 1 = [('/')])) ∧
    ((urlsplit u).scheme = [] → (urlsplit u).netloc = [] → ¬ schemeyCond (urlsplit u).path) := by
  have hscheme : (urlsplit u).scheme = (extract_scheme u).1 := rfl
  have hnetloc : (urlsplit u).netloc = (splitnetloc2 (extract_scheme u).2).1 := rfl
  have hpath := urlsplit_path u
  obtain ⟨hu3h, hq, hph, hppre, hhead⟩ :=
    frag_query_facts ((splitnetloc2 (extract_scheme u).2).2)
  rw [← hpath] at hq hph hppre hhead
  have hcase_shape : ((splitnetloc2 (extract_scheme u).2).2 = [] ∨
      isNetDelim (((splitnetloc2 (extract_scheme u).2).2).headD (' ')) = true) →
      ((urlsplit u).path = [] ∨ (urlsplit u).path.take 1 = [('/')]) := by
    intro hc
    rcases hc with hnil | hdelim
    · left
      rw [hnil] at hppre
      exact List.prefix_nil.mp hppre
    · cases hr2 : (splitnetloc2 (extract_scheme u).2).2 with
      | nil =>
        rw [hr2] at hdelim
        simp [isNetDelim] at hdelim
      | cons c t =>
        rw [hr2] at hdelim hhead
        simp only [List.headD] at hdelim
        rcases hhead c (by simp) with hp | hp
        · exact Or.inl hp
        · rw [isNetDelim] at hdelim
          simp only [Bool.or_eq_true, decide_eq_true_eq] at hdelim
          rcases hdelim with (hc | hc) | hc
          · exact Or.inr (hc ▸ hp)
          · exfalso
            rcases (take_one_eq _ _).mp hp with ⟨r, hr⟩
            exact hq (by rw [hr, hc]; simp)
          · exfalso
            rcases (take_one_eq _ _).mp hp with ⟨r, hr⟩
            exact hph (by rw [hr, hc]; simp)
  have hshape_noschemey : ((urlsplit u).path = [] ∨ (urlsplit u).path.take 1 = [('/')]) →
      ¬ schemeyCond (urlsplit u).path := by
    intro hc
    rcases hc with hnil | hone
    · rw [hnil]
      exact not_schemey_nil
    · rcases (take_one_eq _ _).mp hone with ⟨r, hr⟩
      rw [hr]
      exact not_schemey_head _ _ (by decide)
  refine ⟨hscheme ▸ extract_scheme_inv u, hnetloc ▸ splitnetloc2_fst_inv _, hq, hph, ?_, ?_⟩
  · intro hν
    rcases splitnetloc2_cases (extract_scheme u).2 with hid | hcase
    · exfalso
      rw [hnetloc, hid] at hν
      exact hν rfl
    · exact hcase_shape hcase
  · intro hσ hν
    rcases splitnetloc2_cases (extract_scheme u).2 with hid | hcase
    · rw [hscheme] at hσ
      obtain ⟨hr1, hnsc⟩ := extract_scheme_fst_nil u hσ
      intro hsc
      apply hnsc
      apply schemey_pfx _ _ _ hsc
      have heq : (splitnetloc2 (extract_scheme u).2).2 = u := by
        rw [hid, hr1]
      rw [heq] at hppre
      exact hppre
    · exact hshape_noschemey (hcase_shape hcase)

theorem afterLast_no_hit (p : Char → Bool) (l : Str) :
    ∀ a ∈ afterLast p l, p a = false := by
  intro a ha
  rw [afterLast] at ha
  rw [List.mem_reverse] at ha
  exact tu_all p l.reverse a ha

theorem beforeLast_afterLast (p : Char → Bool) (l : Str) :
    beforeLastIncl p l ++ afterLast p l = l := by
  rw [beforeLastIncl, afterLast, ← List.reverse_append, tu_append_du, List.reverse_reverse]

theorem afterLast_append_right (p : Char → Bool) (x y : Str)
    (hy : ∀ a ∈ y, p a = false)
    (hx : ∃ c t, x.reverse = c :: t ∧ p c = true) :
    afterLast p (x ++ y) = y := by
  rcases hx with ⟨c, t, hxr, hpc⟩
  rw [afterLast, List.reverse_append]
  have hyr : ∀ a ∈ y.reverse, p a = false := by
    intro a ha
    exact hy a (List.mem_reverse.mp ha)
  rw [tu_append_right _ _ _ hyr, hxr, tu_cons_pos _ _ _ hpc, List.append_nil,
    List.reverse_reverse]

theorem afterLast_no_hit_self (p : Char → Bool) (l : Str)
    (h : ∀ a ∈ l, p a = false) : afterLast p l = l := by
  rw [afterLast, tu_eq_self, List.reverse_reverse]
  intro a ha
  exact h a (List.mem_reverse.mp ha)

theorem du_hit (p : Char → Bool) (m : Str) (h : ∃ a ∈ m, p a = true) :
    ∃ c t, dropUntilP p m = c :: t ∧ p c = true := by
  induction m with
  | nil => simp at h
  | cons b t ih =>
    by_cases hb : p b = true
    · exact ⟨b, t, du_cons_pos _ _ _ hb, hb⟩
    · rw [dropUntilP]
      simp only [hb]
      simp only [Bool.false_eq_true, if_false]
      apply ih
      rcases h with ⟨a, ha, hpa⟩
      rcases List.mem_cons.mp ha with rfl | ha
      · exact absurd hpa hb
      · exact ⟨a, ha, hpa⟩

theorem beforeLast_ends_hit (p : Char → Bool) (l : Str) (hhit : ∃ a ∈ l, p a = true) :
    ∃ c t, (beforeLastIncl p l).reverse = c :: t ∧ p c = true := by
  rw [beforeLastIncl, List.reverse_reverse]
  apply du_hit
  rcases hhit with ⟨a, ha, hpa⟩
  exact ⟨a, List.mem_reverse.mpr ha, hpa⟩

theorem du_mem (c : Char) (l : Str) (h : c ∈ l) :
    takeUntilP (fun a => a = c) l ++ c :: (dropUntilP (fun a => a = c) l).tail = l := by
  induction l with
  | nil => simp at h
  | cons a t ih =>
    by_cases ha : a = c
    · subst ha
      rw [tu_cons_pos _ _ _ (by simp), du_cons_pos _ _ _ (by simp)]
      rfl
    · have ht : c ∈ t := by
        rcases List.mem_cons.mp h with he | he
        · exact absurd he.symm ha
        · exact he
      rw [takeUntilP, dropUntilP]
      simp only [decide_eq_true_eq, ha, if_false]
      rw [List.cons_append, ih ht]

theorem split_params_prefix (sp : Str) :
    (if (split_params sp).2 ≠ [] then
      (split_params sp).1 ++ (';') :: (split_params sp).2
     else (split_params sp).1) <+: sp := by
  rw [split_params]
  by_cases hsemi : (';') ∈ sp
  · rw [if_pos hsemi]
    by_cases hslash : ('/') ∈ sp
    · rw [if_pos hslash]
      by_cases hseg : (';') ∈ afterLast (fun a => a = ('/')) sp
      · rw [if_pos hseg]
        have hre := du_mem (';') _ hseg
        by_cases hp2 : (dropUntilP (fun a => a = (';')) (afterLast (fun a => a = ('/')) sp)).tail ≠ []
        · rw [if_pos hp2]
          refine ⟨[], ?_⟩
          rw [List.append_nil, List.append_assoc, hre, beforeLast_afterLast]
        · rw [if_neg hp2]
          push_neg at hp2
          refine ⟨(';') :: (dropUntilP (fun a => a = (';')) (afterLast (fun a => a = ('/')) sp)).tail, ?_⟩
          rw [List.append_assoc, hre, beforeLast_afterLast]
      · rw [if_neg hseg]
        simp
    · rw [if_neg hslash]
      have hre := du_mem (';') _ hsemi
      by_cases hp2 : (dropUntilP (fun a => a = (';')) sp).tail ≠ []
      · rw [if_pos hp2]
        refine ⟨[], ?_⟩
        rw [List.append_nil, hre]
      · rw [if_neg hp2]
        exact ⟨(';') :: (dropUntilP (fun a => a = (';')) sp).tail, hre⟩
  · rw [if_neg hsemi]
    simp

theorem mem_tu (p : Char → Bool) (l : Str) (a : Char) (h : a ∈ takeUntilP p l) :
    a ∈ l :=
  (tu_pfx p l).subset h

theorem mem_du_tail (p : Char → Bool) (l : Str) (a : Char)
    (h : a ∈ (dropUntilP p l).tail) : a ∈ l := by
  have h2 : a ∈ dropUntilP p l := by
    cases hd : dropUntilP p l with
    | nil => rw [hd] at h; simp at h
    | cons c r =>
      rw [hd] at h
      exact List.mem_cons_of_mem _ h
  rw [← tu_append_du p l]
  exact List.mem_append.mpr (Or.inr h2)

theorem mem_afterLast (p : Char → Bool) (l : Str) (a : Char)
    (h : a ∈ afterLast p l) : a ∈ l := by
  rw [afterLast] at h
  rw [List.mem_reverse] at h
  exact List.mem_reverse.mp (mem_tu _ _ _ h)

theorem split_params_seg_ok (sp : Str) :
    (';') ∉ afterLast (fun a => a = ('/')) (split_params sp).1 ∧
    ('/') ∉ (split_params sp).2 := by
  rw [split_params]
  by_cases hsemi : (';') ∈ sp
  · rw [if_pos hsemi]
    by_cases hslash : ('/') ∈ sp
    · rw [if_pos hslash]
      by_cases hseg : (';') ∈ afterLast (fun a => a = ('/')) sp
      · rw [if_pos hseg]
        constructor
        · have haL : afterLast (fun a => a = ('/'))
              (beforeLastIncl (fun a => a = ('/')) sp ++
                takeUntilP (fun a => a = (';')) (afterLast (fun a => a = ('/')) sp))
              = takeUntilP (fun a => a = (';')) (afterLast (fun a => a = ('/')) sp) := by
            apply afterLast_append_right
            · intro a ha
              exact afterLast_no_hit _ sp a (mem_tu _ _ _ ha)
            · exact beforeLast_ends_hit _ _ ⟨('/'), hslash, by simp⟩
          rw [haL]
          intro hc
          have := tu_all (fun a => a = (';')) (afterLast (fun a => a = ('/')) sp) (';') hc
          simp at this
        · intro hc
          have h2 := mem_du_tail _ _ _ hc
          have := afterLast_no_hit (fun a => a = ('/')) sp ('/') h2
          simp at this
      · rw [if_neg hseg]
        exact ⟨hseg, by simp⟩
    · rw [if_neg hslash]
      constructor
      · have hnf : ∀ a ∈ takeUntilP (fun a => a = (';')) sp,
            (fun a => decide (a = ('/'))) a = false := by
          intro a ha
          simp only [decide_eq_false_iff_not]
          intro he
          exact hslash (he ▸ mem_tu _ _ _ ha)
        rw [afterLast_no_hit_self _ _ hnf]
        intro hc
        have := tu_all (fun a => a = (';')) sp (';') hc
        simp at this
      · intro hc
        exact hslash (mem_du_tail _ _ _ hc)
  · rw [if_neg hsemi]
    constructor
    · intro hc
      exact hsemi (mem_afterLast _ _ _ hc)
    · simp

theorem split_params_reassembled (π ρ : Str)
    (hseg : (';') ∉ afterLast (fun a => a = ('/')) π)
    (hρ : ('/') ∉ ρ) :
    split_params (if ρ ≠ [] then π ++ (';') :: ρ else π) = (π, ρ) := by
  by_cases hρe : ρ = []
  · subst hρe
    rw [if_neg (by simp)]
    rw [split_params]
    by_cases hsemi : (';') ∈ π
    · rw [if_pos hsemi]
      by_cases hslash : ('/') ∈ π
      · rw [if_pos hslash, if_neg hseg]
      · exfalso
        apply hseg
        rw [afterLast_no_hit_self]
        · exact hsemi
        · intro a ha
          simp only [decide_eq_false_iff_not]
          intro he
          exact hslash (he ▸ ha)
    · rw [if_neg hsemi]
  · rw [if_pos hρe]
    rw [split_params]
    have hsemi : (';') ∈ π ++ (';') :: ρ := by simp
    rw [if_pos hsemi]
    by_cases hslash : ('/') ∈ π ++ (';') :: ρ
    · rw [if_pos hslash]
      have hslπ : ('/') ∈ π := by
        rcases List.mem_append.mp hslash with h | h
        · exact h
        · rcases List.mem_cons.mp h with he | he
          · exact absurd he.symm (by decide)
          · exact absurd he hρ
      have haL : afterLast (fun a => a = ('/')) (π ++ (';') :: ρ)
          = afterLast (fun a => a = ('/')) π ++ (';') :: ρ := by
        have hd := beforeLast_afterLast (fun a => a = ('/')) π
        rw [show π ++ (';') :: ρ = beforeLastIncl (fun a => a = ('/')) π ++
            (afterLast (fun a => a = ('/')) π ++ (';') :: ρ) from by
          rw [← List.append_assoc, hd]]
        apply afterLast_append_right
        · intro a ha
          simp only [decide_eq_false_iff_not]
          rcases List.mem_append.mp ha with h | h
          · intro he
            have := afterLast_no_hit (fun a => a = ('/')) π a h
            rw [he] at this
            simp at this
          · rcases List.mem_cons.mp h with he | he
            · rw [he]; decide
            · intro hee
              exact hρ (hee ▸ he)
        · exact beforeLast_ends_hit _ _ ⟨('/'), hslπ, by simp⟩
      rw [haL]
      have hsegmem : (';') ∈ afterLast (fun a => a = ('/')) π ++ (';') :: ρ := by simp
      rw [if_pos hsegmem]
      have hnf : ∀ a ∈ afterLast (fun a => a = ('/')) π,
          (fun a => decide (a = (';'))) a = false := by
        intro a ha
        simp only [decide_eq_false_iff_not]
        intro he
        exact hseg (he ▸ ha)
      rw [tu_append_right _ _ _ hnf, tu_cons_pos _ _ _ (by simp),
        du_append_right _ _ _ hnf, du_cons_pos _ _ _ (by simp)]
      have hbl : beforeLastIncl (fun a => a = ('/')) (π ++ (';') :: ρ)
          = beforeLastIncl (fun a => a = ('/')) π := by
        have h1 := beforeLast_afterLast (fun a => a = ('/')) (π ++ (';') :: ρ)
        rw [haL] at h1
        have h2 := beforeLast_afterLast (fun a => a = ('/')) π
        have h3 : beforeLastIncl (fun a => a = ('/')) (π ++ (';') :: ρ) ++
            (afterLast (fun a => a = ('/')) π ++ (';') :: ρ)
            = beforeLastIncl (fun a => a = ('/')) π ++
              (afterLast (fun a => a = ('/')) π ++ (';') :: ρ) := by
          rw [h1, ← List.append_assoc, h2]
        exact List.append_cancel_right h3
      rw [hbl]
      rw [List.append_nil]
      rw [show (((';') :: ρ) : Str).tail = ρ from rfl]
      rw [beforeLast_afterLast]
    · rw [if_neg hslash]
      have hsemiπ : (';') ∉ π := by
        intro hc
        apply hseg
        have : ∀ a ∈ π, (fun a => decide (a = ('/'))) a = false := by
          intro a ha
          simp only [decide_eq_false_iff_not]
          intro he
          exact hslash (List.mem_append.mpr (Or.inl (he ▸ ha)))
        rw [afterLast_no_hit_self _ _ this]
        exact hc
      have hnf : ∀ a ∈ π, (fun a => decide (a = (';'))) a = false := by
        intro a ha
        simp only [decide_eq_false_iff_not]
        intro he
        exact hsemiπ (he ▸ ha)
      rw [tu_append_right _ _ _ hnf, tu_cons_pos _ _ _ (by simp),
        du_append_right _ _ _ hnf, du_cons_pos _ _ _ (by simp)]
      rw [List.append_nil]
      rfl

theorem quote_char_ne_nil (c : Char) : quote_char c ≠ [] := by
  rw [quote_char]
  split_ifs <;> simp

theorem hexDigitUpper_facts : ∀ n < 16, hexVal (hexDigitUpper n) = some n ∧
    hexDigitUpper n ≠ ('#') ∧ hexDigitUpper n ≠ ('&') ∧ hexDigitUpper n ≠ ('=') ∧
    hexDigitUpper n ≠ ('+') := by decide

theorem quote_char_chars (c a : Char) (ha : a ∈ quote_char c) :
    a ≠ ('#') ∧ a ≠ ('&') ∧ a ≠ ('=') := by
  rw [quote_char] at ha
  split_ifs at ha with h1 h2
  · rw [List.mem_singleton] at ha
    subst ha
    refine ⟨?_, ?_, ?_⟩ <;> intro he <;> rw [he] at h1 <;> exact absurd h1 (by decide)
  · rw [List.mem_singleton] at ha
    subst ha
    exact ⟨by decide, by decide, by decide⟩
  · have hlt : c.toNat < 256 := by
      by_contra hge
      push_neg at hge
      exact h1 (by simp [isSafeChar, hge])
    have hdiv : c.toNat / 16 < 16 := by omega
    have hmod : c.toNat % 16 < 16 := by omega
    obtain ⟨_, hd1, hd2, hd3, _⟩ := hexDigitUpper_facts _ hdiv
    obtain ⟨_, he1, he2, he3, _⟩ := hexDigitUpper_facts _ hmod
    rcases List.mem_cons.mp ha with rfl | ha2
    · exact ⟨by decide, by decide, by decide⟩
    · rcases List.mem_cons.mp ha2 with rfl | ha3
      · exact ⟨hd1, hd2, hd3⟩
      · rw [List.mem_singleton] at ha3
        subst ha3
        exact ⟨he1, he2, he3⟩

theorem mem_quote_plus (s : Str) (a : Char) (ha : a ∈ quote_plus s) :
    ∃ c ∈ s, a ∈ quote_char c := by
  rw [quote_plus] at ha
  rw [List.mem_flatten] at ha
  rcases ha with ⟨l, hl, hal⟩
  rw [List.mem_map] at hl
  rcases hl with ⟨c, hc, rfl⟩
  exact ⟨c, hc, hal⟩

theorem quote_plus_chars (s : Str) (a : Char) (ha : a ∈ quote_plus s) :
    a ≠ ('#') ∧ a ≠ ('&') ∧ a ≠ ('=') := by
  rcases mem_quote_plus s a ha with ⟨c, _, hac⟩
  exact quote_char_chars c a hac

theorem quote_plus_ne_nil (s : Str) (h : s ≠ []) : quote_plus s ≠ [] := by
  cases s with
  | nil => exact absurd rfl h
  | cons c t =>
    rw [quote_plus]
    simp only [List.map_cons, List.flatten_cons]
    intro hc
    rcases List.append_eq_nil.mp hc with ⟨h1, _⟩
    exact quote_char_ne_nil c h1

theorem unquote_core_cons_ne (c : Char) (r : Str) (hc : c ≠ ('%')) :
    unquote_core (c :: r) = c :: unquote_core r := by
  rw [unquote_core.eq_def]
  split
  · simp_all
  · exfalso
    simp_all
  · simp_all

theorem unquote_core_pct (a b : Char) (r : Str) (x y : Nat)
    (ha : hexVal a = some x) (hb : hexVal b = some y) :
    unquote_core (('%') :: a :: b :: r) = Char.ofNat (16 * x + y) :: unquote_core r := by
  rw [unquote_core.eq_def]
  split
  · simp_all
  · rename_i a2 b2 rest heq
    injection heq with h1 h2
    injection h2 with h2 h3
    injection h3 with h3 h4
    subst h2 h3 h4
    rw [ha, hb]
  · rename_i c2 rest hno heq
    exfalso
    injection heq with h1 h2
    exact hno a b r h1.symm h2.symm

theorem unquote_core_cons (c : Char) (r : Str) :
    ∃ d t, unquote_core (c :: r) = d :: t := by
  rw [unquote_core.eq_def]
  split
  · simp_all
  · split
    · exact ⟨_, _, rfl⟩
    · exact ⟨_, _, rfl⟩
  · exact ⟨_, _, rfl⟩

theorem unquote_core_ne_nil (l : Str) (h : l ≠ []) : unquote_core l ≠ [] := by
  cases l with
  | nil => exact absurd rfl h
  | cons c r =>
    rcases unquote_core_cons c r with ⟨d, t, he⟩
    rw [he]
    simp

theorem unquote_plus_quote_char (c : Char) (r : Str) :
    unquote_core ((quote_char c).map (fun x => if x = ('+') then (' ') else x) ++ r)
      = c :: unquote_core r := by
  rw [quote_char]
  split_ifs with h1 h2
  · have hcp : c ≠ ('+') := by
      intro he
      rw [he] at h1
      exact absurd h1 (by decide)
    have hcpc : c ≠ ('%') := by
      intro he
      rw [he] at h1
      exact absurd h1 (by decide)
    simp only [List.map_cons, List.map_nil, if_neg hcp, List.cons_append, List.nil_append]
    exact unquote_core_cons_ne c r hcpc
  · subst h2
    simp only [List.map_cons, List.map_nil, if_pos rfl, List.cons_append, List.nil_append]
    exact unquote_core_cons_ne _ r (by decide)
  · have hlt : c.toNat < 256 := by
      by_contra hge
      push_neg at hge
      exact h1 (by simp [isSafeChar, hge])
    have hdiv : c.toNat / 16 < 16 := by omega
    have hmod : c.toNat % 16 < 16 := by omega
    obtain ⟨hv1, _, _, _, hp1⟩ := hexDigitUpper_facts _ hdiv
    obtain ⟨hv2, _, _, _, hp2⟩ := hexDigitUpper_facts _ hmod
    simp only [List.map_cons, List.map_nil, List.cons_append, List.nil_append,
      if_neg (by decide : ¬ ('%') = ('+')), if_neg hp1, if_neg hp2]
    rw [unquote_core_pct _ _ r _ _ hv1 hv2]
    congr 1
    apply char_toNat_inj
    rw [char_ofNat_toNat]
    · omega
    · omega

theorem unquote_core_map_quote (s : Str) :
    unquote_core ((quote_plus s).map (fun x => if x = ('+') then (' ') else x)) = s := by
  induction s with
  | nil => rfl
  | cons c t ih =>
    have hq : quote_plus (c :: t) = quote_char c ++ quote_plus t := rfl
    rw [hq, List.map_append, unquote_plus_quote_char, ih]

theorem unquote_plus_quote_plus (s : Str) : unquote_plus (quote_plus s) = s := by
  rw [unquote_plus]
  exact unquote_core_map_quote s

theorem splitSep_ne_nil (sep : Char) (l : Str) : splitSep sep l ≠ [] := by
  cases l with
  | nil => simp [splitSep]
  | cons c r =>
    rw [splitSep]
    cases h : splitSep sep r with
    | nil => simp
    | cons a t => split_ifs <;> simp

theorem splitSep_no_sep (sep : Char) (l : Str) (h : sep ∉ l) : splitSep sep l = [l] := by
  induction l with
  | nil => rfl
  | cons c r ih =>
    have hc : c ≠ sep := fun he => h (by rw [he]; exact List.mem_cons_self _ _)
    have hr : sep ∉ r := fun hm => h (List.mem_cons_of_mem _ hm)
    rw [splitSep, ih hr]
    simp [hc]

theorem splitSep_append (sep : Char) (p rest : Str) (h : sep ∉ p) :
    splitSep sep (p ++ sep :: rest) = p :: splitSep sep rest := by
  induction p with
  | nil =>
    simp only [List.nil_append]
    rw [splitSep]
    cases hs : splitSep sep rest with
    | nil => exact absurd hs (splitSep_ne_nil sep rest)
    | cons a t => simp
  | cons c q ih =>
    have hc : c ≠ sep := fun he => h (by rw [he]; exact List.mem_cons_self _ _)
    have hq : sep ∉ q := fun hm => h (List.mem_cons_of_mem _ hm)
    rw [List.cons_append, splitSep, ih hq]
    simp [hc]

theorem joinSep_cons (sep : Char) (p : Str) (L : List Str) (hL : L ≠ []) :
    joinSep sep (p :: L) = p ++ sep :: joinSep sep L := by
  cases L with
  | nil => exact absurd rfl hL
  | cons q t => rfl

theorem splitSep_joinSep (sep : Char) (L : List Str) (hL : L ≠ [])
    (h : ∀ p ∈ L, sep ∉ p) : splitSep sep (joinSep sep L) = L := by
  induction L with
  | nil => exact absurd rfl hL
  | cons p t ih =>
    cases t with
    | nil =>
      rw [show joinSep sep [p] = p from rfl]
      exact splitSep_no_sep sep p (h p (by simp))
    | cons q r =>
      rw [joinSep_cons sep p (q :: r) (by simp)]
      rw [splitSep_append sep p _ (h p (by simp))]
      rw [ih (by simp) (fun x hx => h x (List.mem_cons_of_mem _ hx))]

theorem mem_joinSep (sep : Char) (L : List Str) (a : Char) (ha : a ∈ joinSep sep L) :
    a = sep ∨ ∃ p ∈ L, a ∈ p := by
  induction L with
  | nil => simp [joinSep] at ha
  | cons p t ih =>
    cases t with
    | nil =>
      right
      exact ⟨p, by simp, ha⟩
    | cons q r =>
      rw [joinSep_cons _ _ _ (by simp)] at ha
      rcases List.mem_append.mp ha with h | h
      · right
        exact ⟨p, by simp, h⟩
      · rcases List.mem_cons.mp h with rfl | h2
        · left
          rfl
        · rcases ih h2 with h3 | ⟨x, hx, hax⟩
          · left
            exact h3
          · right
            exact ⟨x, List.mem_cons_of_mem _ hx, hax⟩

theorem mem_urlencode (d : List (Str × List Str)) (a : Char) (ha : a ∈ urlencode d) :
    a = ('&') ∨ ∃ kv ∈ d, ∃ v ∈ kv.2, a ∈ quote_plus kv.1 ++ ('=') :: quote_plus v := by
  rw [urlencode] at ha
  rcases mem_joinSep _ _ _ ha with h | ⟨p, hp, hap⟩
  · exact Or.inl h
  · right
    rw [List.mem_flatten] at hp
    rcases hp with ⟨l, hl, hpl⟩
    rw [List.mem_map] at hl
    rcases hl with ⟨kv, hkv, rfl⟩
    rw [List.mem_map] at hpl
    rcases hpl with ⟨v, hvmem, rfl⟩
    exact ⟨kv, hkv, v, hvmem, hap⟩

theorem hash_not_mem_urlencode (d : List (Str × List Str)) : ('#') ∉ urlencode d := by
  intro ha
  rcases mem_urlencode d _ ha with h | ⟨kv, _, v, _, hmem⟩
  · exact absurd h (by decide)
  · rcases List.mem_append.mp hmem with h | h
    · exact (quote_plus_chars _ _ h).1 rfl
    · rcases List.mem_cons.mp h with h | h
      · exact absurd h (by decide)
      · exact (quote_plus_chars _ _ h).1 rfl

theorem filterMap_flatten_eq {α β : Type} (f : α → Option β) (L : List (List α)) :
    (L.flatten).filterMap f = (L.map (fun l => l.filterMap f)).flatten := by
  induction L with
  | nil => rfl
  | cons x t ih => simp [List.filterMap_append, ih]

theorem filterMap_of_forall_some {α β : Type} (f : α → Option β) (g : α → β) (l : List α)
    (h : ∀ a ∈ l, f a = some (g a)) : l.filterMap f = l.map g := by
  induction l with
  | nil => rfl
  | cons a t ih =>
    rw [List.filterMap_cons, h a (by simp), List.map_cons,
      ih (fun x hx => h x (List.mem_cons_of_mem _ hx))]

theorem filterMap_pieces (k : Str) (vs : List Str) (hvs : ∀ v ∈ vs, v ≠ []) :
    (vs.map (fun v => quote_plus k ++ ('=') :: quote_plus v)).filterMap
      (fun nv => if nv = [] then none
        else if (('=') ∈ nv) then
          let value := (dropUntilP (fun a => a = ('=')) nv).tail
          if value ≠ [] then
            some (unquote_plus (takeUntilP (fun a => a = ('=')) nv), unquote_plus value)
          else none
        else none)
      = vs.map (fun v => (k, v)) := by
  rw [List.filterMap_map]
  apply filterMap_of_forall_some
  intro v hvmem
  have hv := hvs v hvmem
  have hne : quote_plus k ++ ('=') :: quote_plus v ≠ [] := by simp
  have hmem : ('=') ∈ quote_plus k ++ ('=') :: quote_plus v := by simp
  have hnoeq : ∀ a ∈ quote_plus k, (fun a => decide (a = ('='))) a = false := by
    intro a ha
    simp only [decide_eq_false_iff_not]
    exact (quote_plus_chars _ _ ha).2.2
  have hdu : (dropUntilP (fun a => a = ('=')) (quote_plus k ++ ('=') :: quote_plus v)).tail
      = quote_plus v := by
    rw [du_append_right _ _ _ hnoeq, du_cons_pos _ _ _ (by simp)]
    rfl
  have htu : takeUntilP (fun a => a = ('=')) (quote_plus k ++ ('=') :: quote_plus v)
      = quote_plus k := by
    rw [tu_append_right _ _ _ hnoeq, tu_cons_pos _ _ _ (by simp), List.append_nil]
  have hF : (if (quote_plus k ++ ('=') :: quote_plus v) = ([] : Str) then none
      else if (('=') ∈ quote_plus k ++ ('=') :: quote_plus v) then
        if (dropUntilP (fun a => a = ('=')) (quote_plus k ++ ('=') :: quote_plus v)).tail ≠ []
        then
          some (unquote_plus
                  (takeUntilP (fun a => a = ('=')) (quote_plus k ++ ('=') :: quote_plus v)),
                unquote_plus
                  ((dropUntilP (fun a => a = ('=')) (quote_plus k ++ ('=') :: quote_plus v)).tail))
        else none
      else none) = some (k, v) := by
    rw [if_neg hne, if_pos hmem, hdu, htu, if_pos (quote_plus_ne_nil v hv),
      unquote_plus_quote_plus, unquote_plus_quote_plus]
  exact hF

theorem parse_qsl_urlencode (d : List (Str × List Str))
    (hv : ∀ kv ∈ d, ∀ v ∈ kv.2, v ≠ []) :
    parse_qsl (urlencode d)
      = (d.map (fun kv => kv.2.map (fun v => (kv.1, v)))).flatten := by
  by_cases hp :
      ((d.map (fun kv => kv.2.map (fun v => quote_plus kv.1 ++ ('=') :: quote_plus v))).flatten)
        = []
  · have hall : ∀ kv ∈ d, kv.2 = [] := by
      intro kv hkv
      rw [List.flatten_eq_nil_iff] at hp
      have := hp (kv.2.map (fun v => quote_plus kv.1 ++ ('=') :: quote_plus v))
        (List.mem_map_of_mem _ hkv)
      simpa using this
    have hflat : (d.map (fun kv => kv.2.map (fun v => (kv.1, v)))).flatten = [] := by
      rw [List.flatten_eq_nil_iff]
      intro l hl
      rw [List.mem_map] at hl
      rcases hl with ⟨kv, hkv, rfl⟩
      rw [hall kv hkv]
      rfl
    rw [hflat, urlencode, hp]
    rfl
  · have hnoamp : ∀ p ∈ (d.map
        (fun kv => kv.2.map (fun v => quote_plus kv.1 ++ ('=') :: quote_plus v))).flatten,
        ('&') ∉ p := by
      intro p hpmem hamem
      rw [List.mem_flatten] at hpmem
      rcases hpmem with ⟨l, hl, hpl⟩
      rw [List.mem_map] at hl
      rcases hl with ⟨kv, hkv, rfl⟩
      rw [List.mem_map] at hpl
      rcases hpl with ⟨v, hvmem, rfl⟩
      rcases List.mem_append.mp hamem with h | h
      · exact (quote_plus_chars _ _ h).2.1 rfl
      · rcases List.mem_cons.mp h with h | h
        · exact absurd h (by decide)
        · exact (quote_plus_chars _ _ h).2.1 rfl
    rw [urlencode, parse_qsl, splitSep_joinSep _ _ hp hnoamp, filterMap_flatten_eq,
      List.map_map]
    congr 1
    apply List.map_congr_left
    intro kv hkv
    exact filterMap_pieces kv.1 kv.2 (hv kv hkv)

theorem addPair_block (k : Str) (w vs : List Str) (acc : List (Str × List Str))
    (hk : ∀ e ∈ acc, e.1 ≠ k) :
    List.foldl addPair (acc ++ [(k, w)]) (vs.map (fun v => (k, v)))
      = acc ++ [(k, w ++ vs)] := by
  induction vs generalizing w with
  | nil => simp
  | cons v t ih =>
    rw [List.map_cons, List.foldl_cons]
    have hstep : addPair (acc ++ [(k, w)]) (k, v) = acc ++ [(k, w ++ [v])] := by
      rw [addPair]
      have hany : (acc ++ [(k, w)]).any (fun e => e.1 = (k, v).1) = true := by simp
      rw [if_pos hany, List.map_append]
      congr 1
      · have hmap : acc.map (fun e => if e.1 = (k, v).1 then (e.1, e.2 ++ [(k, v).2]) else e)
            = acc.map id := by
          apply List.map_congr_left
          intro e he
          simp [if_neg (hk e he)]
        rw [hmap, List.map_id]
      · simp
    rw [hstep, ih (w ++ [v])]
    simp

theorem foldl_addPair_flatten (d acc : List (Str × List Str))
    (hkeys : ((acc ++ d).map Prod.fst).Nodup)
    (hne : ∀ kv ∈ d, kv.2 ≠ []) :
    List.foldl addPair acc ((d.map (fun kv => kv.2.map (fun v => (kv.1, v)))).flatten)
      = acc ++ d := by
  induction d generalizing acc with
  | nil => simp
  | cons kv t ih =>
    rw [List.map_cons, List.flatten_cons, List.foldl_append]
    have hk : ∀ e ∈ acc, e.1 ≠ kv.1 := by
      intro e he hc
      rw [List.map_append, List.nodup_append] at hkeys
      exact hkeys.2.2 (List.mem_map_of_mem _ he) (by simp [hc])
    have hblock : List.foldl addPair acc (kv.2.map (fun v => (kv.1, v))) = acc ++ [kv] := by
      cases hv2 : kv.2 with
      | nil => exact absurd hv2 (hne kv (by simp))
      | cons v vs =>
        rw [List.map_cons, List.foldl_cons]
        have hfirst : addPair acc (kv.1, v) = acc ++ [(kv.1, [v])] := by
          rw [addPair]
          have hany : acc.any (fun e => e.1 = (kv.1, v).1) = false := by
            rw [List.any_eq_false]
            intro e he
            simpa using hk e he
          rw [hany]
          simp
        rw [hfirst, addPair_block _ _ _ _ hk]
        have : kv = (kv.1, v :: vs) := by
          cases kv
          simp_all
        rw [this]
        rfl
    rw [hblock]
    have hkeys2 : (((acc ++ [kv]) ++ t).map Prod.fst).Nodup := by
      have : (acc ++ [kv]) ++ t = acc ++ kv :: t := by simp
      rw [this]
      exact hkeys
    rw [ih (acc ++ [kv]) hkeys2 (fun q hq => hne q (List.mem_cons_of_mem _ hq))]
    simp

theorem parse_qsl_vals (qs : Str) : ∀ kv ∈ parse_qsl qs, kv.2 ≠ [] := by
  intro kv hkv
  rw [parse_qsl, List.mem_filterMap] at hkv
  rcases hkv with ⟨nv, _, hF⟩
  by_cases h1 : nv = []
  · rw [if_pos h1] at hF
    exact absurd hF (by simp)
  · rw [if_neg h1] at hF
    by_cases h2 : ('=') ∈ nv
    · rw [if_pos h2] at hF
      have hF2 : (if (dropUntilP (fun a => a = ('=')) nv).tail ≠ [] then
          some (unquote_plus (takeUntilP (fun a => a = ('=')) nv),
                unquote_plus ((dropUntilP (fun a => a = ('=')) nv).tail))
        else none) = some kv := hF
      by_cases h3 : (dropUntilP (fun a => a = ('=')) nv).tail ≠ []
      · rw [if_pos h3] at hF2
        injection hF2 with hF3
        rw [← hF3]
        apply unquote_core_ne_nil
        intro hm
        exact h3 (List.map_eq_nil_iff.mp hm)
      · rw [if_neg h3] at hF2
        exact absurd hF2 (by simp)
    · rw [if_neg h2] at hF
      exact absurd hF (by simp)

theorem foldl_addPair_inv (ps : List (Str × Str)) (acc : List (Str × List Str))
    (hvp : ∀ p ∈ ps, p.2 ≠ [])
    (hacc : (acc.map Prod.fst).Nodup ∧ ∀ kv ∈ acc, kv.2 ≠ [] ∧ ∀ v ∈ kv.2, v ≠ []) :
    ((List.foldl addPair acc ps).map Prod.fst).Nodup ∧
      ∀ kv ∈ List.foldl addPair acc ps, kv.2 ≠ [] ∧ ∀ v ∈ kv.2, v ≠ [] := by
  induction ps generalizing acc with
  | nil => exact hacc
  | cons p t ih =>
    rw [List.foldl_cons]
    refine ih _ (fun q hq => hvp q (List.mem_cons_of_mem _ hq)) ⟨?_, ?_⟩
    · rw [addPair]
      split_ifs with h
      · have hmap : (acc.map (fun e => if e.1 = p.1 then (e.1, e.2 ++ [p.2]) else e)).map
            Prod.fst = acc.map Prod.fst := by
          rw [List.map_map]
          apply List.map_congr_left
          intro e _
          by_cases hh : e.1 = p.1 <;> simp [hh]
        rw [hmap]
        exact hacc.1
      · rw [List.map_append, List.nodup_append]
        refine ⟨hacc.1, by simp, ?_⟩
        intro x hx hx2
        rw [List.mem_map] at hx
        rcases hx with ⟨e, he, rfl⟩
        rw [Bool.not_eq_true, List.any_eq_false] at h
        simp only [List.map_cons, List.map_nil, List.mem_singleton] at hx2
        have he2 := h e he
        simp only [decide_eq_false_iff_not] at he2
        exact absurd hx2 (by simpa using he2)
    · intro kv hkv
      rw [addPair] at hkv
      split_ifs at hkv with h
      · rw [List.mem_map] at hkv
        rcases hkv with ⟨e, he, rfl⟩
        by_cases hh : e.1 = p.1
        · rw [if_pos hh]
          refine ⟨by simp, ?_⟩
          intro v hv
          rcases List.mem_append.mp hv with hv2 | hv2
          · exact (hacc.2 e he).2 v hv2
          · rw [List.mem_singleton] at hv2
            subst hv2
            exact hvp p (by simp)
        · rw [if_neg hh]
          exact hacc.2 e he
      · rcases List.mem_append.mp hkv with h2 | h2
        · exact hacc.2 kv h2
        · rw [List.mem_singleton] at h2
          subst h2
          refine ⟨by simp, ?_⟩
          intro v hv
          rw [List.mem_singleton] at hv
          subst hv
          exact hvp p (by simp)

theorem parse_qs_inv (qs : Str) :
    ((parse_qs qs).map Prod.fst).Nodup ∧
      ∀ kv ∈ parse_qs qs, kv.2 ≠ [] ∧ ∀ v ∈ kv.2, v ≠ [] := by
  rw [parse_qs]
  exact foldl_addPair_inv _ [] (parse_qsl_vals qs) ⟨by simp, by simp⟩

theorem parse_qs_urlencode (d : List (Str × List Str))
    (hkeys : (d.map Prod.fst).Nodup) (hne : ∀ kv ∈ d, kv.2 ≠ [])
    (hv : ∀ kv ∈ d, ∀ v ∈ kv.2, v ≠ []) :
    parse_qs (urlencode d) = d := by
  rw [parse_qs, parse_qsl_urlencode d hv]
  have := foldl_addPair_flatten d [] (by simpa using hkeys) hne
  simpa using this

theorem afterLast_cons_hit (p : Char → Bool) (c : Char) (l : Str) (hc : p c = true) :
    afterLast p (c :: l) = afterLast p l := by
  rw [afterLast, afterLast]
  rw [show (c :: l).reverse = l.reverse ++ [c] from by simp]
  by_cases hh : ∃ a ∈ l.reverse, p a = true
  · rw [(tu_append_left _ _ [c] hh).1]
  · push_neg at hh
    have hno : ∀ a ∈ l.reverse, p a = false := by
      intro a ha
      simpa using hh a ha
    rw [tu_append_right _ _ _ hno, tu_cons_pos _ _ _ hc, List.append_nil,
      tu_eq_self _ _ hno]

theorem reassemble_take2 (π ρ : Str) (h : π.take 2 ≠ [('/'), ('/')]) :
    (if ρ ≠ [] then π ++ (';') :: ρ else π).take 2 ≠ [('/'), ('/')] := by
  by_cases hρ : ρ = []
  · rw [if_neg (by simpa using hρ)]
    exact h
  · rw [if_pos hρ]
    cases π with
    | nil =>
      intro he
      have he2 : (';') :: ρ.take 1 = [('/'), ('/')] := he
      injection he2 with h1 _
      exact absurd h1 (by decide)
    | cons a q =>
      cases q with
      | nil =>
        intro he
        have he2 : a :: (';') :: ρ.take 0 = [('/'), ('/')] := he
        injection he2 with h1 h2
        injection h2 with h2 _
        exact absurd h2 (by decide)
      | cons b r =>
        intro he
        apply h
        show a :: b :: (r.take 0) = [('/'), ('/')]
        exact he

theorem urlbody_slash_mut (σ pp : Str) (hσ : σ ≠ []) (hmem : σ ∈ uses_netloc)
    (hpp : pp ≠ []) (h1 : pp.take 1 ≠ [('/')]) :
    urlbody σ [] (('/') :: pp) = urlbody σ [] pp := by
  have htake : (('/') :: pp).take 2 = ('/') :: pp.take 1 := rfl
  have hl2 : (('/') :: pp).take 2 ≠ [('/'), ('/')] := by
    rw [htake]
    intro he
    injection he with _ h2
    exact h1 h2
  have hr2 : pp.take 2 ≠ [('/'), ('/')] := by
    cases pp with
    | nil => exact absurd rfl hpp
    | cons a q =>
      intro he
      have he2 : a :: q.take 1 = [('/'), ('/')] := he
      injection he2 with ha _
      exact h1 (by rw [ha]; rfl)
  rw [urlbody, urlbody,
    if_pos (Or.inr ⟨hσ, hmem, hl2⟩ :
      ([] : Str) ≠ [] ∨ (σ ≠ [] ∧ σ ∈ uses_netloc ∧ (('/') :: pp).take 2 ≠ [('/'), ('/')])),
    if_pos (Or.inr ⟨hσ, hmem, hr2⟩ :
      ([] : Str) ≠ [] ∨ (σ ≠ [] ∧ σ ∈ uses_netloc ∧ pp.take 2 ≠ [('/'), ('/')]))]
  rw [if_neg (fun hc => hc.2 rfl : ¬ ((('/') :: pp) ≠ [] ∧ (('/') :: pp).take 1 ≠ [('/')]))]
  rw [if_pos ⟨hpp, h1⟩]

theorem urlunsplit_slash_mut (σ pp κ : Str) (hσ : σ ≠ []) (hmem : σ ∈ uses_netloc)
    (hpp : pp ≠ []) (h1 : pp.take 1 ≠ [('/')]) :
    urlunsplit σ [] (('/') :: pp) κ [] = urlunsplit σ [] pp κ [] := by
  rw [urlunsplit_eq, urlunsplit_eq, if_pos hσ, if_pos hσ,
    urlbody_slash_mut σ pp hσ hmem hpp h1]

theorem urlparse_scheme (w : Str) : (urlparse w).scheme = (urlsplit w).scheme := rfl

theorem urlparse_netloc (w : Str) : (urlparse w).netloc = (urlsplit w).netloc := rfl

theorem urlparse_path_eq (w : Str) :
    (urlparse w).path = (split_params (urlsplit w).path).1 := rfl

theorem urlparse_params_eq (w : Str) :
    (urlparse w).params = (split_params (urlsplit w).path).2 := rfl

theorem urlparse_query (w : Str) : (urlparse w).query = (urlsplit w).query := rfl

theorem urlparse_fragment (w : Str) : (urlparse w).fragment = (urlsplit w).fragment := rfl

theorem normalize_url_unparse (w : Str) : normalize_url w
    = urlunparse ⟨(urlparse w).scheme, (urlparse w).netloc, (urlparse w).path,
        (urlparse w).params,
        (if ((parse_qs (urlparse w).query).filter (fun kv => decide (kv.1 ∉ utm_params))) ≠ []
         then urlencode ((parse_qs (urlparse w).query).filter
            (fun kv => decide (kv.1 ∉ utm_params)))
         else []), []⟩ := rfl

theorem urlunparse_mk (σ ν π ρ κ φ : Str) : urlunparse ⟨σ, ν, π, ρ, κ, φ⟩
    = urlunsplit σ ν (if ρ ≠ [] then π ++ (';') :: ρ else π) κ φ := rfl

set_option maxHeartbeats 1000000 in
theorem normalize_parse (u : Str)
    (hD : (urlparse u).netloc ≠ [] ∨ (urlparse u).path.take 2 ≠ [('/'), ('/')]) :
    (urlparse (normalize_url u)).scheme = (urlparse u).scheme ∧
    (urlparse (normalize_url u)).netloc = (urlparse u).netloc ∧
    ((urlparse (normalize_url u)).path = (urlparse u).path ∨
      ((urlparse u).netloc = [] ∧
        (urlparse (normalize_url u)).path = ('/') :: (urlparse u).path)) ∧
    (urlparse (normalize_url u)).params = (urlparse u).params ∧
    (urlparse (normalize_url u)).fragment = [] ∧
    parse_qs ((urlparse (normalize_url u)).query)
      = (parse_qs (urlparse u).query).filter (fun kv => decide (kv.1 ∉ utm_params)) ∧
    normalize_url (normalize_url u) = normalize_url u := by
  obtain ⟨hσinv, hνinv, hq, hph, hslash0, hns0⟩ := urlsplit_inv u
  rw [← urlparse_scheme u] at hσinv hns0
  rw [← urlparse_netloc u] at hνinv hslash0 hns0
  obtain ⟨hseg, hρslash⟩ := split_params_seg_ok (urlsplit u).path
  rw [← urlparse_path_eq u] at hseg
  rw [← urlparse_params_eq u] at hρslash
  obtain ⟨hnodup, hvals⟩ := parse_qs_inv (urlsplit u).query
  rw [show parse_qs (urlsplit u).query = parse_qs (urlparse u).query from rfl]
    at hnodup hvals
  set σ := (urlparse u).scheme with hσdef
  set ν := (urlparse u).netloc with hνdef
  set π := (urlparse u).path with hπdef
  set ρ := (urlparse u).params with hρdef
  set κ := (urlparse u).query with hκdef
  set FP := (parse_qs κ).filter (fun kv => decide (kv.1 ∉ utm_params)) with hFPdef
  set nq := (if FP ≠ [] then urlencode FP else []) with hnqdef
  set pp := (if ρ ≠ [] then π ++ (';') :: ρ else π) with hppdef
  have hnu : normalize_url u = urlunsplit σ ν pp nq [] := by
    rw [normalize_url_unparse u, urlunparse_mk]
  have hppre : pp <+: (urlsplit u).path := split_params_prefix (urlsplit u).path
  have hppq : ('?') ∉ pp := fun hm => hq (hppre.subset hm)
  have hpph2 : ('#') ∉ pp := fun hm => hph (hppre.subset hm)
  have hκh : ('#') ∉ nq := by
    rw [hnqdef]
    by_cases hFP0 : FP ≠ []
    · rw [if_pos hFP0]
      exact hash_not_mem_urlencode FP
    · rw [if_neg hFP0]
      simp
  have hslash : ν ≠ [] → (pp = [] ∨ pp.take 1 = [('/')]) := by
    intro hν
    rcases hslash0 hν with hnil | hone
    · left
      have hpre2 := hppre
      rw [hnil] at hpre2
      exact List.prefix_nil.mp hpre2
    · by_cases hpp0 : pp = []
      · exact Or.inl hpp0
      · right
        cases hpc : pp with
        | nil => exact absurd hpc hpp0
        | cons a t =>
          obtain ⟨r, hr⟩ := hppre
          rw [hpc] at hr
          rw [← hr] at hone
          have h2 : a :: (t ++ r).take 0 = [('/')] := hone
          have ha : a = ('/') := (List.cons_eq_cons.mp h2).1
          show a :: t.take 0 = [('/')]
          rw [ha]
          rfl
  have hns : σ = [] → ν = [] → ¬ schemeyCond pp := by
    intro h1 h2 hsc
    exact hns0 h1 h2 (schemey_pfx _ _ hppre hsc)
  have hD2 : ν ≠ [] ∨ pp.take 2 ≠ [('/'), ('/')] := by
    rcases hD with h | h
    · exact Or.inl h
    · exact Or.inr (reassemble_take2 π ρ h)
  have hmaster := urlsplit_urlunsplit σ ν pp nq hσinv hνinv hppq hpph2 hκh hslash hns hD2
  rw [← hnu] at hmaster
  have hqparse : parse_qs nq = FP := by
    by_cases hFP0 : FP ≠ []
    · rw [hnqdef, if_pos hFP0]
      apply parse_qs_urlencode
      · exact hnodup.sublist (List.Sublist.map _ (List.filter_sublist _))
      · intro kv hkv
        exact (hvals kv (List.mem_of_mem_filter hkv)).1
      · intro kv hkv
        exact (hvals kv (List.mem_of_mem_filter hkv)).2
    · rw [hnqdef, if_neg hFP0]
      push_neg at hFP0
      rw [hFP0]
      rfl
  have hFPn : (parse_qs nq).filter (fun kv => decide (kv.1 ∉ utm_params)) = FP := by
    rw [hqparse]
    apply List.filter_eq_self.mpr
    intro a ha
    exact (List.mem_filter.mp ha).2
  by_cases hmut : ν = [] ∧ σ ≠ [] ∧ σ ∈ uses_netloc ∧ pp ≠ [] ∧ pp.take 1 ≠ [('/')]
  · rw [if_pos hmut] at hmaster
    have hrea : (('/') :: pp)
        = (if ρ ≠ [] then (('/') :: π) ++ (';') :: ρ else (('/') :: π)) := by
      rw [hppdef]
      by_cases hρ0 : ρ ≠ []
      · rw [if_pos hρ0, if_pos hρ0, List.cons_append]
      · rw [if_neg hρ0, if_neg hρ0]
    have hseg2 : (';') ∉ afterLast (fun a => a = ('/')) (('/') :: π) := by
      rw [afterLast_cons_hit _ _ _ (by simp)]
      exact hseg
    have hsp : split_params (('/') :: pp) = ((('/') :: π), ρ) := by
      rw [hrea]
      exact split_params_reassembled _ ρ hseg2 hρslash
    have hsch : (urlparse (normalize_url u)).scheme = σ := by
      rw [urlparse_scheme, hmaster]
    have hnet : (urlparse (normalize_url u)).netloc = ν := by
      rw [urlparse_netloc, hmaster]
    have hpath : (urlparse (normalize_url u)).path = ('/') :: π := by
      rw [urlparse_path_eq, hmaster]
      rw [show (SplitResult.mk σ ν (('/') :: pp) nq []).path = ('/') :: pp from rfl, hsp]
    have hparams : (urlparse (normalize_url u)).params = ρ := by
      rw [urlparse_params_eq, hmaster]
      rw [show (SplitResult.mk σ ν (('/') :: pp) nq []).path = ('/') :: pp from rfl, hsp]
    have hquery : (urlparse (normalize_url u)).query = nq := by
      rw [urlparse_query, hmaster]
    have hfrag : (urlparse (normalize_url u)).fragment = [] := by
      rw [urlparse_fragment, hmaster]
    refine ⟨hsch, hnet, Or.inr ⟨hmut.1, hpath⟩, hparams, hfrag, ?_, ?_⟩
    · rw [hquery, hqparse]
    · rw [normalize_url_unparse (normalize_url u), urlunparse_mk,
        hsch, hnet, hpath, hparams, hquery, hFPn, ← hrea, ← hnqdef, hnu, hmut.1]
      exact urlunsplit_slash_mut σ pp nq hmut.2.1 hmut.2.2.1 hmut.2.2.2.1 hmut.2.2.2.2
  · rw [if_neg hmut] at hmaster
    have hsp : split_params pp = (π, ρ) := split_params_reassembled π ρ hseg hρslash
    have hsch : (urlparse (normalize_url u)).scheme = σ := by
      rw [urlparse_scheme, hmaster]
    have hnet : (urlparse (normalize_url u)).netloc = ν := by
      rw [urlparse_netloc, hmaster]
    have hpath : (urlparse (normalize_url u)).path = π := by
      rw [urlparse_path_eq, hmaster]
      rw [show (SplitResult.mk σ ν pp nq []).path = pp from rfl, hsp]
    have hparams : (urlparse (normalize_url u)).params = ρ := by
      rw [urlparse_params_eq, hmaster]
      rw [show (SplitResult.mk σ ν pp nq []).path = pp from rfl, hsp]
    have hquery : (urlparse (normalize_url u)).query = nq := by
      rw [urlparse_query, hmaster]
    have hfrag : (urlparse (normalize_url u)).fragment = [] := by
      rw [urlparse_fragment, hmaster]
    refine ⟨hsch, hnet, Or.inl hpath, hparams, hfrag, ?_, ?_⟩
    · rw [hquery, hqparse]
    · rw [normalize_url_unparse (normalize_url u), urlunparse_mk,
        hsch, hnet, hpath, hparams, hquery, hFPn, ← hppdef, ← hnqdef, hnu]

theorem mem_du (p : Char → Bool) (l : Str) (a : Char) (h : a ∈ dropUntilP p l) :
    a ∈ l := by
  rw [← tu_append_du p l]
  exact List.mem_append.mpr (Or.inr h)

theorem afterLast_append_hit (p : Char → Bool) (x y : Str) (hy : ∃ a ∈ y, p a = true) :
    afterLast p (x ++ y) = afterLast p y := by
  rw [afterLast, afterLast, List.reverse_append]
  have hyr : ∃ a ∈ y.reverse, p a = true := by
    rcases hy with ⟨a, ha, hpa⟩
    exact ⟨a, List.mem_reverse.mpr ha, hpa⟩
  rw [(tu_append_left _ _ _ hyr).1]

theorem afterLast_semi_append (π ρ : Str) (hρ : ('/') ∉ ρ) (hsl : ('/') ∈ π) :
    afterLast (fun a => a = ('/')) (π ++ (';') :: ρ)
      = afterLast (fun a => a = ('/')) π ++ (';') :: ρ := by
  have hd := beforeLast_afterLast (fun a => a = ('/')) π
  rw [show π ++ (';') :: ρ = beforeLastIncl (fun a => a = ('/')) π ++
      (afterLast (fun a => a = ('/')) π ++ (';') :: ρ) from by
    rw [← List.append_assoc, hd]]
  apply afterLast_append_right
  · intro a ha
    simp only [decide_eq_false_iff_not]
    rcases List.mem_append.mp ha with h | h
    · intro he
      have := afterLast_no_hit (fun a => a = ('/')) π a h
      rw [he] at this
      simp at this
    · rcases List.mem_cons.mp h with he | he
      · rw [he]
        decide
      · intro hee
        exact hρ (hee ▸ he)
  · exact beforeLast_ends_hit _ _ ⟨('/'), hsl, by simp⟩

theorem split_params_roundtrip_noloss (x : Str)
    (hcase : (';') ∉ afterLast (fun a => a = ('/')) x ∨
       (('/') ∈ x ∧
        (dropUntilP (fun a => a = (';')) (afterLast (fun a => a = ('/')) x)).tail ≠ [])) :
    (if (split_params x).2 ≠ [] then (split_params x).1 ++ (';') :: (split_params x).2
     else (split_params x).1) = x := by
  rw [split_params]
  by_cases hsemi : (';') ∈ x
  · rw [if_pos hsemi]
    by_cases hslash : ('/') ∈ x
    · rw [if_pos hslash]
      by_cases hseg : (';') ∈ afterLast (fun a => a = ('/')) x
      · rw [if_pos hseg]
        have htail : (dropUntilP (fun a => a = (';'))
            (afterLast (fun a => a = ('/')) x)).tail ≠ [] := by
          rcases hcase with h | h
          · exact absurd hseg h
          · exact h.2
        rw [if_pos htail]
        rw [List.append_assoc, du_mem _ _ hseg, beforeLast_afterLast]
      · rw [if_neg hseg]
        simp
    · rw [if_neg hslash]
      exfalso
      have hall : ∀ a ∈ x, (fun a => decide (a = ('/'))) a = false := by
        intro a ha
        simp only [decide_eq_false_iff_not]
        intro he
        exact hslash (he ▸ ha)
      rcases hcase with h | h
      · rw [afterLast_no_hit_self _ _ hall] at h
        exact h hsemi
      · exact hslash h.1
  · rw [if_neg hsemi]
    simp

theorem take2_shape (x : Str) (h : x.take 2 = [('/'), ('/')]) :
    ∃ w, x = ('/') :: ('/') :: w := by
  cases x with
  | nil => exact absurd h (by simp)
  | cons a q =>
    cases q with
    | nil => exact absurd h (by simp)
    | cons b r =>
      have h2 : a :: b :: r.take 0 = [('/'), ('/')] := h
      obtain ⟨ha, h3⟩ := List.cons_eq_cons.mp h2
      obtain ⟨hb, _⟩ := List.cons_eq_cons.mp h3
      exact ⟨r, by rw [ha, hb]⟩

theorem urlunsplit_caseD (σ pp κ : Str) (hpp2 : pp.take 2 = [('/'), ('/')]) :
    urlunsplit σ [] pp κ []
      = (if σ ≠ [] then σ ++ (':') :: pp else pp)
          ++ (if κ = [] then [] else ('?') :: κ) := by
  rw [urlunsplit_eq]
  have hbody : urlbody σ [] pp = pp := by
    rw [urlbody, if_neg]
    rintro (h | ⟨_, _, h⟩)
    · exact h rfl
    · exact h hpp2
  rw [hbody]

theorem urlsplit_caseD (σ w κ : Str)
    (hσ : σ = [] ∨ ((':') ∉ σ ∧ (σ.headD (' ')).isAlpha = true ∧
      σ.all isSchemeChar = true ∧ lowerStr σ = σ))
    (hwq : ('?') ∉ w) (hwh : ('#') ∉ w) (hκh : ('#') ∉ κ) :
    urlsplit (urlunsplit σ [] (('/') :: ('/') :: w) κ [])
      = ⟨σ, takeUntilP isNetDelim w, dropUntilP isNetDelim w, κ, []⟩ := by
  rw [urlunsplit_caseD σ (('/') :: ('/') :: w) κ (by rfl)]
  have hscheme : extract_scheme ((if σ ≠ [] then σ ++ (':') :: (('/') :: ('/') :: w)
        else (('/') :: ('/') :: w)) ++ (if κ = [] then [] else ('?') :: κ))
      = (σ, (('/') :: ('/') :: w) ++ (if κ = [] then [] else ('?') :: κ)) := by
    by_cases hσ0 : σ ≠ []
    · rcases hσ with rfl | ⟨hc, ha, hs, hl⟩
      · exact absurd rfl hσ0
      · rw [if_pos hσ0, List.append_assoc]
        rw [show ((':') :: (('/') :: ('/') :: w)) ++ (if κ = [] then [] else ('?') :: κ)
          = (':') :: ((('/') :: ('/') :: w) ++ (if κ = [] then [] else ('?') :: κ))
          from rfl]
        rw [extract_scheme_prefix_form σ _ hσ0 hc ha hs, hl]
    · rw [if_neg hσ0]
      push_neg at hσ0
      subst hσ0
      exact extract_scheme_of_not _ (not_schemey_head _ _ (by decide))
  have hnet : splitnetloc2 ((('/') :: ('/') :: w) ++ (if κ = [] then [] else ('?') :: κ))
      = (takeUntilP isNetDelim w,
         dropUntilP isNetDelim w ++ (if κ = [] then [] else ('?') :: κ)) := by
    rw [show (('/') :: ('/') :: w) ++ (if κ = [] then [] else ('?') :: κ)
      = ('/') :: ('/') :: (w ++ (if κ = [] then [] else ('?') :: κ)) from rfl]
    rw [splitnetloc2,
      if_pos (show List.take 2 (('/') :: ('/') :: (w ++ (if κ = [] then [] else ('?') :: κ)))
        = [('/'), ('/')] from rfl)]
    rw [show (('/') :: ('/') :: (w ++ (if κ = [] then [] else ('?') :: κ))).drop 2
      = w ++ (if κ = [] then [] else ('?') :: κ) from rfl]
    by_cases hhit : ∃ a ∈ w, isNetDelim a = true
    · rw [(tu_append_left _ _ _ hhit).1, (tu_append_left _ _ _ hhit).2]
    · push_neg at hhit
      have hno : ∀ a ∈ w, isNetDelim a = false := by
        intro a ha
        simpa using hhit a ha
      rw [tu_append_right _ _ _ hno, du_append_right _ _ _ hno, tu_eq_self _ _ hno,
        du_eq_nil _ _ hno]
      by_cases hκ0 : κ = []
      · rw [if_pos hκ0]
        simp [takeUntilP, dropUntilP]
      · rw [if_neg hκ0, tu_cons_pos _ _ _ (by decide), du_cons_pos _ _ _ (by decide)]
        simp
  apply urlsplit_parts _ σ _ _ _ _ κ hscheme hnet
  · intro hm
    rcases List.mem_append.mp hm with h | h
    · exact hwh (mem_du _ _ _ h)
    · by_cases hκ0 : κ = []
      · rw [if_pos hκ0] at h
        simp at h
      · rw [if_neg hκ0] at h
        rcases List.mem_cons.mp h with he | he
        · exact absurd he (by decide)
        · exact hκh he
  · rfl
  · intro hm
    exact hwq (mem_du _ _ _ hm)

set_option maxHeartbeats 1000000 in
theorem normalize_image_idem (l : Str)
    (hν2 : (urlparse (normalize_url l)).netloc ≠ []) :
    normalize_url (normalize_url l) = normalize_url l := by
  by_cases hD : (urlparse l).netloc ≠ [] ∨ (urlparse l).path.take 2 ≠ [('/'), ('/')]
  · exact (normalize_parse l hD).2.2.2.2.2.2
  · push_neg at hD
    obtain ⟨hν, hπ2⟩ := hD
    obtain ⟨hσinv, hνinv, hq, hph, hslash0, hns0⟩ := urlsplit_inv l
    rw [← urlparse_scheme l] at hσinv hns0
    obtain ⟨hseg, hρslash⟩ := split_params_seg_ok (urlsplit l).path
    rw [← urlparse_path_eq l] at hseg
    rw [← urlparse_params_eq l] at hρslash
    obtain ⟨hnodup, hvals⟩ := parse_qs_inv (urlsplit l).query
    rw [show parse_qs (urlsplit l).query = parse_qs (urlparse l).query from rfl]
      at hnodup hvals
    set σ := (urlparse l).scheme with hσdef
    set π := (urlparse l).path with hπdef
    set ρ := (urlparse l).params with hρdef
    set κ := (urlparse l).query with hκdef
    set FP := (parse_qs κ).filter (fun kv => decide (kv.1 ∉ utm_params)) with hFPdef
    set nq := (if FP ≠ [] then urlencode FP else []) with hnqdef
    set pp := (if ρ ≠ [] then π ++ (';') :: ρ else π) with hppdef
    have hnu : normalize_url l = urlunsplit σ (urlparse l).netloc pp nq [] := by
      rw [normalize_url_unparse l, urlunparse_mk]
    rw [hν] at hnu
    obtain ⟨w0, hπw⟩ := take2_shape π hπ2
    have hppw : ∃ w, pp = ('/') :: ('/') :: w := by
      rw [hppdef, hπw]
      by_cases hρ0 : ρ ≠ []
      · rw [if_pos hρ0]
        exact ⟨w0 ++ (';') :: ρ, rfl⟩
      · rw [if_neg hρ0]
        exact ⟨w0, rfl⟩
    obtain ⟨w, hppe⟩ := hppw
    have hppre : pp <+: (urlsplit l).path := split_params_prefix (urlsplit l).path
    have hppq : ('?') ∉ pp := fun hm => hq (hppre.subset hm)
    have hpph2 : ('#') ∉ pp := fun hm => hph (hppre.subset hm)
    have hwq : ('?') ∉ w := fun hm => hppq
      (by rw [hppe]; exact List.mem_cons_of_mem _ (List.mem_cons_of_mem _ hm))
    have hwh : ('#') ∉ w := fun hm => hpph2
      (by rw [hppe]; exact List.mem_cons_of_mem _ (List.mem_cons_of_mem _ hm))
    have hκh : ('#') ∉ nq := by
      rw [hnqdef]
      by_cases hFP0 : FP ≠ []
      · rw [if_pos hFP0]
        exact hash_not_mem_urlencode FP
      · rw [if_neg hFP0]
        simp
    have hmaster : urlsplit (normalize_url l)
        = ⟨σ, takeUntilP isNetDelim w, dropUntilP isNetDelim w, nq, []⟩ := by
      rw [hnu, hppe]
      exact urlsplit_caseD σ w nq hσinv hwq hwh hκh
    set ν₂ := takeUntilP isNetDelim w with hν₂def
    set path₂ := dropUntilP isNetDelim w with hpath₂def
    have hwsplit : ν₂ ++ path₂ = w := tu_append_du isNetDelim w
    have hν₂ne : ν₂ ≠ [] := by
      intro hc
      apply hν2
      rw [urlparse_netloc, hmaster]
      exact hc
    have hpath₂shape : path₂ = [] ∨ ∃ z, path₂ = ('/') :: z := by
      rcases du_head isNetDelim w (' ') with h | h
      · exact Or.inl h
      · cases hpz : path₂ with
        | nil => exact Or.inl rfl
        | cons c z =>
          right
          rw [← hpath₂def, hpz] at h
          have hcm : c ∈ w := mem_du _ _ _ (by rw [← hpath₂def, hpz]; exact List.mem_cons_self _ _)
          have hcd : isNetDelim c = true := h
          rw [isNetDelim] at hcd
          simp only [Bool.or_eq_true, decide_eq_true_eq] at hcd
          rcases hcd with (hc | hc) | hc
          · refine ⟨z, ?_⟩
            rw [hc]
          · rw [hc] at hcm
            exact absurd hcm hwq
          · rw [hc] at hcm
            exact absurd hcm hwh
    have hcase : (';') ∉ afterLast (fun a => a = ('/')) path₂ ∨
        (('/') ∈ path₂ ∧ (dropUntilP (fun a => a = (';'))
          (afterLast (fun a => a = ('/')) path₂)).tail ≠ []) := by
      by_cases hsl : ('/') ∈ path₂
      · have hA : afterLast (fun a => a = ('/')) pp
            = afterLast (fun a => a = ('/')) path₂ := by
          rw [hppe, ← hwsplit]
          rw [show ('/') :: ('/') :: (ν₂ ++ path₂) = (('/') :: ('/') :: ν₂) ++ path₂
            from rfl]
          exact afterLast_append_hit _ _ _ ⟨('/'), hsl, by simp⟩
        by_cases hρ0 : ρ ≠ []
        · right
          refine ⟨hsl, ?_⟩
          have hslπ : ('/') ∈ π := by
            rw [hπw]
            exact List.mem_cons_self _ _
          have hppsemi : pp = π ++ (';') :: ρ := by rw [hppdef, if_pos hρ0]
          have haL : afterLast (fun a => a = ('/')) pp
              = afterLast (fun a => a = ('/')) π ++ (';') :: ρ := by
            rw [hppsemi]
            exact afterLast_semi_append π ρ hρslash hslπ
          have hnf : ∀ a ∈ afterLast (fun a => a = ('/')) π,
              (fun a => decide (a = (';'))) a = false := by
            intro a ha
            simp only [decide_eq_false_iff_not]
            intro he
            exact hseg (he ▸ ha)
          rw [← hA, haL, du_append_right _ _ _ hnf, du_cons_pos _ _ _ (by simp)]
          show ρ ≠ []
          exact hρ0
        · have hppπ : pp = π := by rw [hppdef, if_neg hρ0]
          left
          rw [← hA, hppπ]
          exact hseg
      · left
        rcases hpath₂shape with hnil | ⟨z, hz⟩
        · rw [hnil]
          intro hc
          exact absurd hc (by simp [afterLast, takeUntilP])
        · exact absurd (by rw [hz]; exact List.mem_cons_self _ _) hsl
    have hnoloss := split_params_roundtrip_noloss path₂ hcase
    have hsch : (urlparse (normalize_url l)).scheme = σ := by
      rw [urlparse_scheme, hmaster]
    have hnet : (urlparse (normalize_url l)).netloc = ν₂ := by
      rw [urlparse_netloc, hmaster]
    have hpath : (urlparse (normalize_url l)).path = (split_params path₂).1 := by
      rw [urlparse_path_eq, hmaster]
    have hparams : (urlparse (normalize_url l)).params = (split_params path₂).2 := by
      rw [urlparse_params_eq, hmaster]
    have hquery : (urlparse (normalize_url l)).query = nq := by
      rw [urlparse_query, hmaster]
    have hqparse : parse_qs nq = FP := by
      by_cases hFP0 : FP ≠ []
      · rw [hnqdef, if_pos hFP0]
        apply parse_qs_urlencode
        · exact hnodup.sublist (List.Sublist.map _ (List.filter_sublist _))
        · intro kv hkv
          exact (hvals kv (List.mem_of_mem_filter hkv)).1
        · intro kv hkv
          exact (hvals kv (List.mem_of_mem_filter hkv)).2
      · rw [hnqdef, if_neg hFP0]
        push_neg at hFP0
        rw [hFP0]
        rfl
    have hFPn : (parse_qs nq).filter (fun kv => decide (kv.1 ∉ utm_params)) = FP := by
      rw [hqparse]
      apply List.filter_eq_self.mpr
      intro a ha
      exact (List.mem_filter.mp ha).2
    rw [normalize_url_unparse (normalize_url l), urlunparse_mk, hsch, hnet, hpath, hparams,
      hquery, hFPn, ← hnqdef, hnoloss, hnu, hppe, ← hwsplit]
    rw [urlunsplit_eq, urlunsplit_eq]
    have hbody : urlbody σ ν₂ path₂ = urlbody σ [] (('/') :: ('/') :: (ν₂ ++ path₂)) := by
      rw [urlbody, urlbody]
      rw [if_pos (Or.inl hν₂ne :
        ν₂ ≠ [] ∨ (σ ≠ [] ∧ σ ∈ uses_netloc ∧ path₂.take 2 ≠ [('/'), ('/')]))]
      rw [if_neg (show ¬ (([] : Str) ≠ [] ∨ (σ ≠ [] ∧ σ ∈ uses_netloc ∧
          (('/') :: ('/') :: (ν₂ ++ path₂)).take 2 ≠ [('/'), ('/')])) from by
        rintro (h | ⟨_, _, h⟩)
        · exact h rfl
        · exact h rfl)]
      have hu : (if path₂ ≠ [] ∧ path₂.take 1 ≠ [('/')] then ('/') :: path₂ else path₂)
          = path₂ := by
        rcases hpath₂shape with hnil | ⟨z, hz⟩
        · rw [if_neg]
          intro hc
          exact hc.1 hnil
        · rw [if_neg]
          intro hc
          exact hc.2 (by rw [hz]; rfl)
      rw [hu]
    rw [hbody]


theorem process_links_mem (bd : Str) (vis tv links : List Str) (u : Str)
    (hu : u ∈ process_links bd vis tv links) :
    u ∈ tv ∨ ∃ link, u = normalize_url link ∧ (urlparse u).netloc = bd := by
  induction links generalizing tv with
  | nil => exact Or.inl hu
  | cons link rest ih =>
    rw [process_links] at hu
    split_ifs at hu with hc
    · rcases ih _ hu with htv | hr
      · rw [addToSet] at htv
        split_ifs at htv with hmem
        · exact Or.inl htv
        · rcases List.mem_append.mp htv with h | h
          · exact Or.inl h
          · rw [List.mem_singleton] at h
            subst h
            exact Or.inr ⟨link, rfl, hc.1⟩
      · exact Or.inr hr
    · exact ih _ hu

theorem crawl_idem_inv_step (g : SiteGraph) (bd : Str) (max_pages : Nat)
    (s s' : CrawlState) (hbd : bd ≠ [])
    (hstep : CrawlStep g bd max_pages s s') (hinv : CrawlIdemInv max_pages s) :
    CrawlIdemInv max_pages s' := by
  obtain ⟨h1, h2, h3, h4, h5⟩ := hinv
  cases hstep with
  | skip_visited url hmem hcap hvis =>
    exact ⟨fun x hx => h1 x (List.mem_of_mem_erase hx), h2, h3, h4, h5⟩
  | fetch_fail url hmem hcap hvis hg =>
    refine ⟨fun x hx => h1 x (List.mem_of_mem_erase hx), ?_, ?_, ?_, h5⟩
    · intro x hx
      rcases List.mem_append.mp hx with h | h
      · exact List.mem_append.mpr (Or.inl (h2 x h))
      · exact List.mem_append.mpr (Or.inr h)
    · simp only [List.nodup_append]
      refine ⟨h3, List.nodup_singleton url, ?_⟩
      intro a ha hb
      simp only [List.mem_singleton] at hb
      exact hvis (hb ▸ h2 a ha)
    · intro x hx
      rcases List.mem_append.mp hx with h | h
      · exact h4 x h
      · rw [List.mem_singleton] at h
        subst h
        exact h1 x hmem
  | fetch_ok url html links hmem hcap hvis hg =>
    refine ⟨?_, ?_, ?_, ?_, ?_⟩
    · intro x hx
      rcases process_links_mem bd (s.visited ++ [url]) _ links x hx with h | ⟨link, hl, hn⟩
      · exact h1 x (List.mem_of_mem_erase h)
      · subst hl
        apply normalize_image_idem
        rw [hn]
        exact hbd
    · intro x hx
      rcases List.mem_append.mp hx with h | h
      · exact List.mem_append.mpr (Or.inl (h2 x h))
      · exact List.mem_append.mpr (Or.inr h)
    · simp only [List.nodup_append]
      refine ⟨h3, List.nodup_singleton url, ?_⟩
      intro a ha hb
      simp only [List.mem_singleton] at hb
      exact hvis (hb ▸ h2 a ha)
    · intro x hx
      rcases List.mem_append.mp hx with h | h
      · exact h4 x h
      · rw [List.mem_singleton] at h
        subst h
        exact h1 x hmem
    · simp only [List.length_append, List.length_singleton]
      omega

theorem crawl_idem_inv_reach (g : SiteGraph) (base_url : Str) (max_pages : Nat)
    (s : CrawlState)
    (hseed : normalize_url base_url = base_url)
    (hbd : (urlparse base_url).netloc ≠ [])
    (h : CrawlReach g base_url max_pages crawler_initial_visited s) :
    CrawlIdemInv max_pages s := by
  induction h with
  | refl =>
    refine ⟨?_, by simp [crawl_init, crawler_initial_visited], by simp [crawl_init],
      by simp [crawl_init], by simp [crawl_init]⟩
    intro x hx
    rw [show x ∈ (crawl_init base_url crawler_initial_visited).to_visit
        ↔ x = base_url from by simp [crawl_init]] at hx
    rw [hx]
    exact hseed
  | tail hr hstep ih => exact crawl_idem_inv_step _ _ _ _ _ hbd hstep ih

/-- Claim C9: `_normalize_url` is not idempotent on every URL: with input
`/////x` (empty netloc, path beginning `//`), the first pass rewrites the path
from `///x` to itself but re-parsing moves characters between netloc and path,
so a second pass gives a different string. -/
theorem normalize_url_not_idempotent_counterexample :
    normalize_url (S ("/////x")) = S ("///x") ∧
    normalize_url (normalize_url (S ("/////x"))) = S ("/x") ∧
    normalize_url (normalize_url (S ("/////x"))) ≠ normalize_url (S ("/////x")) := by
  refine ⟨by decide, by decide, by decide⟩

/-- Claim C9 (amended): `normalize(normalize(x)) = normalize(x)` for every URL
`x` that has a netloc or whose path does not begin with `//`. -/
theorem normalize_url_idempotent (u : Str)
    (h : (urlparse u).netloc ≠ [] ∨ (urlparse u).path.take 2 ≠ [('/'), ('/')]) :
    normalize_url (normalize_url u) = normalize_url u :=
  (normalize_parse u h).2.2.2.2.2.2

/-- Witness for C9 at `http://example.com/a;b?utm_source=x&q=1`. -/
theorem normalize_url_idempotent_witness :
    ((urlparse (S ("http://example.com/a;b?utm_source=x&q=1"))).netloc ≠ [] ∨
      (urlparse (S ("http://example.com/a;b?utm_source=x&q=1"))).path.take 2
        ≠ [('/'), ('/')]) ∧
    normalize_url (normalize_url (S ("http://example.com/a;b?utm_source=x&q=1")))
      = normalize_url (S ("http://example.com/a;b?utm_source=x&q=1")) :=
  ⟨Or.inl (by decide),
   normalize_url_idempotent (S ("http://example.com/a;b?utm_source=x&q=1"))
     (Or.inl (by decide))⟩

/-- Claim C4, counterexample: `parse_qs` drops query fields with an empty
value, so normalising `http://h/p?a=&b=1` loses the parameter `a` even though
`a` is not a tracking parameter: not all remaining query parameters are
preserved. -/
theorem normalize_url_drops_blank_param :
    normalize_url (S ("http://h/p?a=&b=1")) = S ("http://h/p?b=1") ∧
    (S ("a")) ∈ (splitSep ('&') (urlparse (S ("http://h/p?a=&b=1"))).query).map
        (takeUntilP (fun c => c = ('='))) ∧
    (S ("a")) ∉ (splitSep ('&')
          (urlparse (normalize_url (S ("http://h/p?a=&b=1")))).query).map
        (takeUntilP (fun c => c = ('='))) := by
  refine ⟨by decide, by decide, by decide⟩

/-- Claim C4 (amended): for every absolute URL (non-empty netloc), the
normaliser removes the fragment, keeps scheme, netloc, path and params
unchanged, and the parsed query of the output is exactly the parsed query of
the input with the five `utm_*` parameters removed; parameters whose value is
blank are dropped by `parse_qs` before re-encoding. -/
theorem normalize_url_canonical (u : Str) (hν : (urlparse u).netloc ≠ []) :
    (urlparse (normalize_url u)).scheme = (urlparse u).scheme ∧
    (urlparse (normalize_url u)).netloc = (urlparse u).netloc ∧
    (urlparse (normalize_url u)).path = (urlparse u).path ∧
    (urlparse (normalize_url u)).params = (urlparse u).params ∧
    (urlparse (normalize_url u)).fragment = [] ∧
    parse_qs ((urlparse (normalize_url u)).query)
      = (parse_qs (urlparse u).query).filter (fun kv => decide (kv.1 ∉ utm_params)) := by
  obtain ⟨h1, h2, h3, h4, h5, h6, _⟩ := normalize_parse u (Or.inl hν)
  rcases h3 with h3 | ⟨hc, _⟩
  · exact ⟨h1, h2, h3, h4, h5, h6⟩
  · exact absurd hc hν

/-- Witness for C4 at `http://h/p?utm_source=a&b=c`. -/
theorem normalize_url_canonical_witness :
    (urlparse (S ("http://h/p?utm_source=a&b=c"))).netloc ≠ [] ∧
    ((urlparse (normalize_url (S ("http://h/p?utm_source=a&b=c")))).scheme
        = (urlparse (S ("http://h/p?utm_source=a&b=c"))).scheme ∧
     (urlparse (normalize_url (S ("http://h/p?utm_source=a&b=c")))).netloc
        = (urlparse (S ("http://h/p?utm_source=a&b=c"))).netloc ∧
     (urlparse (normalize_url (S ("http://h/p?utm_source=a&b=c")))).path
        = (urlparse (S ("http://h/p?utm_source=a&b=c"))).path ∧
     (urlparse (normalize_url (S ("http://h/p?utm_source=a&b=c")))).params
        = (urlparse (S ("http://h/p?utm_source=a&b=c"))).params ∧
     (urlparse (normalize_url (S ("http://h/p?utm_source=a&b=c")))).fragment = [] ∧
     parse_qs ((urlparse (normalize_url (S ("http://h/p?utm_source=a&b=c")))).query)
        = (parse_qs (urlparse (S ("http://h/p?utm_source=a&b=c"))).query).filter
            (fun kv => decide (kv.1 ∉ utm_params))) :=
  ⟨by decide, normalize_url_canonical (S ("http://h/p?utm_source=a&b=c")) (by decide)⟩

/-- Claim C6 (amended): if the seed URL is already in normal form and has a
non-empty netloc, then within one crawl run no normalized URL is ever fetched
twice and at most `max_pages` pages are returned, on any site graph including
cyclic ones. -/
theorem crawl_no_refetch_and_cap (g : SiteGraph) (base_url : Str) (max_pages : Nat)
    (s : CrawlState)
    (hseed : normalize_url base_url = base_url)
    (hbd : (urlparse base_url).netloc ≠ [])
    (hreach : CrawlReach g base_url max_pages crawler_initial_visited s) :
    (s.fetched.map normalize_url).Nodup ∧ s.pages.length ≤ max_pages := by
  obtain ⟨htv, hfv, hnd, hfn, hpg⟩ :=
    crawl_idem_inv_reach g base_url max_pages s hseed hbd hreach
  refine ⟨?_, hpg⟩
  have hmap : s.fetched.map normalize_url = s.fetched.map id := by
    apply List.map_congr_left
    intro x hx
    exact hfn x hx
  rw [hmap, List.map_id]
  exact hnd

/-- Witness for C6: the one-page crawl of `wGraph` from the normalized seed
`http://h/`. -/
theorem crawl_no_refetch_and_cap_witness :
    normalize_url wBase = wBase ∧ (urlparse wBase).netloc ≠ [] ∧
    ((wS1.fetched.map normalize_url).Nodup ∧ wS1.pages.length ≤ 1) :=
  ⟨by decide, by decide,
   crawl_no_refetch_and_cap wGraph wBase 1 wS1 (by decide) (by decide) wReach1⟩
